import Mathlib

/-!
Verification of the turbo-geth incremental Merkle-Patricia trie engine:
shallow embedding of the HashBuilder stack machine, the account encodings,
the nibble/byte utilities and the unwind procedure, with theorems checking
the natural-language specification against the code.

Bytes are modelled as natural numbers (well-formed when below 256), byte
strings as lists of naturals.
-/

namespace TG

/-- Big-endian value of a byte string. -/
def beNat (l : List Nat) : Nat := l.foldl (fun acc b => acc * 256 + b) 0

/-- Little-endian value of a byte string (used for reversed strings). -/
def leNat : List Nat → Nat
  | [] => 0
  | b :: rest => b + 256 * leNat rest

/-- Minimal big-endian byte representation of a natural number; empty for 0. -/
def beBytes (n : Nat) : List Nat :=
  if n = 0 then [] else beBytes (n / 256) ++ [n % 256]
decreasing_by exact Nat.div_lt_self (Nat.pos_of_ne_zero (by assumption)) (by omega)

/-- Boolean strict lexicographic order on byte strings: a proper prefix is
smaller, otherwise the first differing byte decides. -/
def bytesLtB : List Nat → List Nat → Bool
  | _, [] => false
  | [], _ :: _ => true
  | a :: as, b :: bs => decide (a < b) || (a == b && bytesLtB as bs)

/-- Three-way byte-string comparison with the semantics of Go bytes.Compare. -/
def compareBytes : List Nat → List Nat → Ordering
  | [], [] => .eq
  | [], _ :: _ => .lt
  | _ :: _, [] => .gt
  | a :: as, b :: bs =>
    if a < b then .lt else if b < a then .gt else compareBytes as bs

/-- Splits a byte string into chunks of the given positive size (fuel-driven
on the length of the list). -/
def chunksF (sz : Nat) : Nat → List Nat → List (List Nat)
  | 0, _ => []
  | _, [] => []
  | fuel + 1, l => l.take sz :: chunksF sz fuel (l.drop sz)

def chunks (sz : Nat) (l : List Nat) : List (List Nat) := chunksF sz l.length l

/-! ### Keccak-256

The engine fixes Keccak-256 (the pre-NIST legacy padding, as produced by
sha3.NewLegacyKeccak256).  The permutation state is a list of 25 lanes of
64 bits, lane (x, y) stored at index x + 5 * y. -/

def u64mask : Nat := 2 ^ 64 - 1

def rotl64 (x n : Nat) : Nat := ((x <<< n) ||| (x >>> (64 - n))) % 2 ^ 64

/-- Keccak round constants. -/
def keccakRC : List Nat :=
  [1, 32898, 9223372036854808714,
   9223372039002292224, 32907, 2147483649,
   9223372039002292353, 9223372036854808585, 138,
   136, 2147516425, 2147483658,
   2147516555, 9223372036854775947, 9223372036854808713,
   9223372036854808579, 9223372036854808578, 9223372036854775936,
   32778, 9223372039002259466, 9223372039002292353,
   9223372036854808704, 2147483649, 9223372039002292232]

/-- Keccak rotation offsets, indexed by x + 5 * y. -/
def keccakRho : List Nat :=
  [[0, 1, 62, 28, 27],
   [36, 44, 6, 55, 20],
   [3, 10, 43, 25, 39],
   [41, 45, 15, 21, 8],
   [18, 2, 61, 56, 14]].flatten

/-- One round of the Keccak-f permutation on 25 lanes. -/
def keccakRound (A : List Nat) (rc : Nat) : List Nat :=
  let C := (List.range 5).map fun x =>
    (A.getD x 0) ^^^ (A.getD (x + 5) 0) ^^^ (A.getD (x + 10) 0) ^^^
    (A.getD (x + 15) 0) ^^^ (A.getD (x + 20) 0)
  let D := (List.range 5).map fun x =>
    (C.getD ((x + 4) % 5) 0) ^^^ rotl64 (C.getD ((x + 1) % 5) 0) 1
  let A1 := (List.range 25).map fun i => (A.getD i 0) ^^^ (D.getD (i % 5) 0)
  let B := (List.range 25).map fun j =>
    let u := j % 5
    let v := j / 5
    let x := (u + 3 * v) % 5
    let y := u
    rotl64 (A1.getD (x + 5 * y) 0) (keccakRho.getD (x + 5 * y) 0)
  let A2 := (List.range 25).map fun j =>
    let x := j % 5
    let y := j / 5
    (B.getD j 0) ^^^ ((u64mask ^^^ (B.getD ((x + 1) % 5 + 5 * y) 0)) &&&
      (B.getD ((x + 2) % 5 + 5 * y) 0))
  A2.set 0 ((A2.getD 0 0) ^^^ rc)

/-- The full 24-round Keccak-f[1600] permutation. -/
def keccakF (A : List Nat) : List Nat := keccakRC.foldl keccakRound A

/-- Legacy Keccak multi-rate padding (domain byte 0x01) to a multiple of the
rate. -/
def keccakPad (rate : Nat) (msg : List Nat) : List Nat :=
  let padLen := rate - msg.length % rate
  if padLen = 1 then msg ++ [0x81]
  else msg ++ 0x01 :: List.replicate (padLen - 2) 0 ++ [0x80]

/-- Little-endian interpretation of 8 bytes as a lane. -/
def bytesToLane (bs : List Nat) : Nat := bs.foldr (fun b acc => b + 256 * acc) 0

/-- Absorbs one 136-byte block into the sponge state. -/
def absorbBlock (st block : List Nat) : List Nat :=
  keccakF ((List.range 25).map fun i =>
    (st.getD i 0) ^^^ (if i < 17 then bytesToLane ((block.drop (8 * i)).take 8) else 0))

/-- Little-endian bytes of one lane. -/
def laneBytes (x : Nat) : List Nat := (List.range 8).map fun i => (x >>> (8 * i)) % 256

/-- Keccak-256 of a byte string: rate 136, legacy padding, 32-byte digest. -/
def keccak256 (msg : List Nat) : List Nat :=
  let st := (chunks 136 (keccakPad 136 msg)).foldl absorbBlock (List.replicate 25 0)
  (List.range 4).flatMap fun i => laneBytes (st.getD i 0)

end TG

namespace TG

/-! ### RLP encoding

The recursive-length-prefix codec: a single byte below 0x80 encodes itself,
short byte strings get the 0x80+len header, long ones 0xb7+lenlen, and lists
follow the same pattern with bases 0xc0 and 0xf7. -/

def rlpEncBytes (bs : List Nat) : List Nat :=
  if bs.length = 1 ∧ bs.headD 0 < 0x80 then bs
  else if bs.length < 56 then (0x80 + bs.length) :: bs
  else (0xb7 + (beBytes bs.length).length) :: (beBytes bs.length ++ bs)

def rlpEncNat (n : Nat) : List Nat := rlpEncBytes (beBytes n)

/-- Header bytes of an RLP list with a payload of the given length.
Modelled from the spec: this is rlphacks.GenerateStructLen, whose source is
not part of the repository snapshot; the spec fixes the list header as
0xc0+len below 56 and 0xf7+lenlen followed by the big-endian length
otherwise. -/
def rlpListHeader (payloadLen : Nat) : List Nat :=
  if payloadLen < 56 then [0xc0 + payloadLen]
  else (0xf7 + (beBytes payloadLen).length) :: beBytes payloadLen

def rlpEncList (items : List (List Nat)) : List Nat :=
  rlpListHeader items.flatten.length ++ items.flatten

/-! ### RLP decoding, with the canonicality checks of the Go rlp package -/

/-- Parses one RLP string item, returning its payload and the rest of the
input.  Rejects a list header, a non-minimal single-byte encoding, a length
field with a leading zero, and a long form used for a short string. -/
def parseRlpString (l : List Nat) : Option (List Nat × List Nat) :=
  match l with
  | [] => none
  | b :: rest =>
    if b < 0x80 then some ([b], rest)
    else if b < 0xb8 then
      let L := b - 0x80
      if rest.length < L then none
      else if L = 1 ∧ rest.headD 0 < 0x80 then none
      else some (rest.take L, rest.drop L)
    else if b < 0xc0 then
      let LL := b - 0xb7
      if rest.length < LL then none
      else if (rest.take LL).headD 0 = 0 then none
      else
        let L := beNat (rest.take LL)
        if L < 56 then none
        else if (rest.drop LL).length < L then none
        else some ((rest.drop LL).take L, (rest.drop LL).drop L)
    else none

/-- Parses an RLP list header, returning the list payload and the rest. -/
def parseRlpList (l : List Nat) : Option (List Nat × List Nat) :=
  match l with
  | [] => none
  | b :: rest =>
    if b < 0xc0 then none
    else if b < 0xf8 then
      let L := b - 0xc0
      if rest.length < L then none
      else some (rest.take L, rest.drop L)
    else
      let LL := b - 0xf7
      if rest.length < LL then none
      else if (rest.take LL).headD 0 = 0 then none
      else
        let L := beNat (rest.take LL)
        if L < 56 then none
        else if (rest.drop LL).length < L then none
        else some ((rest.drop LL).take L, (rest.drop LL).drop L)

/-- Canonical RLP integer payload: a leading zero byte is rejected. -/
def payloadToNat (bs : List Nat) : Option Nat :=
  if bs.headD 1 = 0 then none else some (beNat bs)

/-- Parses an RLP-encoded uint64 field (payload of at most 8 bytes). -/
def parseU64 (l : List Nat) : Option (Nat × List Nat) :=
  match parseRlpString l with
  | some (p, rest) =>
    if p.length ≤ 8 then (payloadToNat p).map (fun n => (n, rest)) else none
  | none => none

/-- Parses an RLP-encoded big integer field (any canonical payload). -/
def parseBigInt (l : List Nat) : Option (Nat × List Nat) :=
  match parseRlpString l with
  | some (p, rest) => (payloadToNat p).map (fun n => (n, rest))
  | none => none

/-- Parses a 32-byte hash field. -/
def parseHash32 (l : List Nat) : Option (List Nat × List Nat) :=
  match parseRlpString l with
  | some (p, rest) => if p.length = 32 then some (p, rest) else none
  | none => none

end TG

namespace TG

/-! ### Account records and their on-disk encodings

The account record carries the fields the state encodings touch.  Balance is
a u256 and nonce a u64 per the data model of the spec; the storage size is
an optional u64 pointer in the source. -/

structure Account where
  nonce : Nat
  balance : Nat
  root : List Nat
  codeHash : List Nat
  storageSize : Option Nat
deriving Repr, DecidableEq

/-- The empty-trie root constant: source has
common.HexToHash of 56e81f171bcc...3b421 in the state package and the trie
package uses the same EmptyRoot value. -/
def emptyRootBytes : List Nat :=
  [0x56, 0xe8, 0x1f, 0x17, 0x1b, 0xcc, 0x55, 0xa6, 0xff, 0x83, 0x45, 0xe6,
   0x92, 0xc0, 0xf8, 0x6e, 0x5b, 0x48, 0xe0, 0x1b, 0x99, 0x6c, 0xad, 0xc0,
   0x01, 0x62, 0x2f, 0xb5, 0xe3, 0x63, 0xb4, 0x21]

/-- Keccak-256 of the empty string, the code hash of a codeless account
(source: EmptyCodeHash = crypto.Keccak256Hash(nil)). -/
def emptyCodeHashBytes : List Nat :=
  [0xc5, 0xd2, 0x46, 0x01, 0x86, 0xf7, 0x23, 0x3c, 0x92, 0x7e, 0x7d, 0xb2,
   0xdc, 0xc7, 0x03, 0xc0, 0xe5, 0x00, 0xb6, 0x53, 0xca, 0x82, 0x27, 0x3b,
   0x7b, 0xfa, 0xd8, 0x04, 0x5d, 0x85, 0xa4, 0x70]

/-- The all-zero 32-byte value (the Go zero value of common.Hash). -/
def zeroHash32 : List Nat := List.replicate 32 0

/-- Serializes an account for the flat state table, following
accountToEncoding of the state package: a single 0xc0 byte for the empty
account, the short RLP of the nonce and the balance when the root and the
code hash are empty, and the full 4-tuple or 5-tuple RLP otherwise.
The Go nil code hash and nil balance are not modelled: the data model of
the spec makes both fields mandatory (code_hash a hash, balance a u256). -/
def accountToEncoding (a : Account) : List Nat :=
  if a.codeHash = emptyCodeHashBytes ∧ (a.root = emptyRootBytes ∨ a.root = zeroHash32) then
    if a.balance = 0 ∧ a.nonce = 0 then [0xc0]
    else rlpEncList [rlpEncNat a.nonce, rlpEncNat a.balance]
  else
    let root := if a.root = zeroHash32 then emptyRootBytes else a.root
    match a.storageSize with
    | none =>
      rlpEncList [rlpEncNat a.nonce, rlpEncNat a.balance, rlpEncBytes root,
        rlpEncBytes a.codeHash]
    | some s =>
      if s = 0 then
        rlpEncList [rlpEncNat a.nonce, rlpEncNat a.balance, rlpEncBytes root,
          rlpEncBytes a.codeHash]
      else
        rlpEncList [rlpEncNat a.nonce, rlpEncNat a.balance, rlpEncBytes root,
          rlpEncBytes a.codeHash, rlpEncNat s]

/-- Outcome of decoding a fixed-arity RLP struct: the Go rlp package reports
a list with spare elements with a distinguished too-many-elements error,
which encodingToAccount inspects. -/
inductive StructErr where
  | tooMany
  | other
deriving Repr, DecidableEq

/-- Decodes the 2-field ExtAccount struct: nonce (uint64) and balance. -/
def parseExtAccount (enc : List Nat) : Option (Nat × Nat) :=
  match parseRlpList enc with
  | none => none
  | some (payload, rest) =>
    if rest ≠ [] then none
    else match parseU64 payload with
      | none => none
      | some (n, r1) =>
        match parseBigInt r1 with
        | none => none
        | some (b, r2) => if r2 = [] then some (n, b) else none

/-- Decodes the 4-field pre-EIP-2027 Account struct: nonce, balance, root,
code hash.  Spare list elements yield the too-many-elements error. -/
def parseAccount4 (enc : List Nat) : Except StructErr (Nat × Nat × List Nat × List Nat) :=
  match parseRlpList enc with
  | none => .error .other
  | some (payload, rest) =>
    if rest ≠ [] then .error .other
    else match parseU64 payload with
      | none => .error .other
      | some (n, r1) =>
        match parseBigInt r1 with
        | none => .error .other
        | some (b, r2) =>
          match parseHash32 r2 with
          | none => .error .other
          | some (root, r3) =>
            match parseRlpString r3 with
            | none => .error .other
            | some (ch, r4) =>
              if r4 = [] then .ok (n, b, root, ch) else .error .tooMany

/-- Decodes the 5-field account struct with a storage size.
Modelled from the spec: the accounts.Account decoder is not part of the
repository snapshot; the spec fixes the layout as the RLP of
(nonce, balance, root, code_hash, storage_size). -/
def parseAccount5 (enc : List Nat) : Option (Nat × Nat × List Nat × List Nat × Nat) :=
  match parseRlpList enc with
  | none => none
  | some (payload, rest) =>
    if rest ≠ [] then none
    else match parseU64 payload with
      | none => none
      | some (n, r1) =>
        match parseBigInt r1 with
        | none => none
        | some (b, r2) =>
          match parseHash32 r2 with
          | none => none
          | some (root, r3) =>
            match parseRlpString r3 with
            | none => none
            | some (ch, r4) =>
              match parseU64 r4 with
              | none => none
              | some (s, r5) => if r5 = [] then some (n, b, root, ch, s) else none

/-- Decodes a flat-table account value, following encodingToAccount of the
state package: an empty input yields no account, a single byte yields the
empty account, an input shorter than 60 bytes is decoded as the 2-field
ExtAccount, and anything else as the 4-field struct, falling back to the
5-field struct when the list has spare elements. -/
def encodingToAccount (enc : List Nat) : Except Unit (Option Account) :=
  if enc.length = 0 then .ok none
  else if enc.length = 1 then
    .ok (some { nonce := 0, balance := 0, root := emptyRootBytes,
                codeHash := emptyCodeHashBytes, storageSize := none })
  else if enc.length < 60 then
    match parseExtAccount enc with
    | some (n, b) =>
      .ok (some { nonce := n, balance := b, root := emptyRootBytes,
                  codeHash := emptyCodeHashBytes, storageSize := none })
    | none => .error ()
  else
    match parseAccount4 enc with
    | .ok (n, b, root, ch) =>
      .ok (some { nonce := n, balance := b, root := root, codeHash := ch,
                  storageSize := none })
    | .error .tooMany =>
      match parseAccount5 enc with
      | some (n, b, root, ch, s) =>
        .ok (some { nonce := n, balance := b, root := root, codeHash := ch,
                    storageSize := some s })
      | none => .error ()
    | .error .other => .error ()

end TG

namespace TG

/-! ### Nibble keys and the hex-prefix (compact) encoding used by the leaf
and extension hashers of trie/hashbuilder.go -/

/-- Whether a nibble path carries the terminator nibble 16 (source: hasTerm). -/
def hasTerm (s : List Nat) : Bool := s.length > 0 && s.getLast?.getD 0 == 16

/-- Packs nibbles two per byte, high nibble first; a trailing odd nibble
(the terminator, in the callers) is dropped.  This is the write loop of
completeLeafHash and extensionHash. -/
def packPairs : List Nat → List Nat
  | a :: b :: rest => (a * 16 + b) :: packPairs rest
  | _ => []

/-- Compact (hex-prefix) bytes of a nibble path, following the branch
structure of leafHashWithKeyVal and extensionHash: the first byte carries
the terminator and parity flags plus the first nibble when the packed count
is odd. -/
def leafCompact (key : List Nat) : List Nat :=
  if hasTerm key then
    if key.length % 2 = 0 then (0x30 + key.headD 0) :: packPairs (key.drop 1)
    else 0x20 :: packPairs key
  else
    if key.length % 2 = 1 then (0x10 + key.headD 0) :: packPairs (key.drop 1)
    else 0x00 :: packPairs key

/-- The serialized key element of a short node: a bare byte when the compact
form is a single byte, otherwise the 0x80+len string header followed by the
compact bytes (kp and kl of the source). -/
def keyPart (key : List Nat) : List Nat :=
  if (leafCompact key).length > 1 then (0x80 + (leafCompact key).length) :: leafCompact key
  else leafCompact key

/-- The full RLP of a short node given the serialized value element:
list header, key element, value element.  This is the byte stream that
completeLeafHash feeds to the writer. -/
def leafStream (key double : List Nat) : List Nat :=
  rlpListHeader ((keyPart key).length + double.length) ++ keyPart key ++ double

/-- The hash-stack slot buffer produced by completeLeafHash: a node whose
RLP is shorter than 32 bytes is written verbatim over the front of the
33-byte buffer (an embedded node), otherwise the slot is 0x80+32 followed
by the Keccak-256 of the RLP. -/
def completeLeafHash (hashBuf stream : List Nat) : List Nat :=
  if stream.length < 32 then stream ++ hashBuf.drop stream.length
  else 0xa0 :: keccak256 stream

/-! ### The HashBuilder stack machine (trie/hashbuilder.go)

The three stacks: the hash stack is a flat byte string of 33-byte slots
with the top at the end, the node stack holds optional in-memory nodes, the
data-length stack the witness lengths.  The 33-byte scratch buffer hashBuf
persists across opcodes, exactly as in the source.  Go panics (slice
accesses out of range) are modelled as errors; errors abort the
computation, so the state the source leaves behind on an error path is not
modelled. -/

inductive HBNode where
  | short
  | full
  | codeN (c : List Nat)
deriving Repr, DecidableEq

/-- An RlpSerializable value as consumed by the leaf opcode.
Modelled from the spec: the rlphacks package is not part of the repository
snapshot; raw stands for RawBytes (the bytes counted by the witness
length) and double for the ToDoubleRLP serialization of the value element
inside the short-node list (DoubleRLPLen is its length). -/
structure RlpVal where
  raw : List Nat
  double : List Nat
deriving Repr, DecidableEq

structure HashBuilder where
  hashStack : List Nat
  nodeStack : List (Option HBNode)
  dataLenStack : List Nat
  hashBuf : List Nat
deriving Repr, DecidableEq

/-- A freshly constructed HashBuilder (NewHashBuilder): empty stacks, a
zeroed scratch buffer. -/
def HashBuilder.init : HashBuilder :=
  { hashStack := [], nodeStack := [], dataLenStack := [], hashBuf := List.replicate 33 0 }

/-- Reset makes the HashBuilder suitable for reuse: the three stacks are
truncated, the scratch buffer is kept. -/
def HashBuilder.Reset (hb : HashBuilder) : HashBuilder :=
  { hb with hashStack := [], nodeStack := [], dataLenStack := [] }

/-- Internal: leafHashWithKeyVal pushes the slot of the short node built
from the key and the value, the witness length, and a nil node when the
hash stack has outgrown the node stack. -/
def HashBuilder.leafHashWithKeyVal (hb : HashBuilder) (key : List Nat) (val : RlpVal) :
    HashBuilder :=
  let buf := completeLeafHash hb.hashBuf (leafStream key val.double)
  let ds := hb.dataLenStack ++ [val.raw.length + 1 + key.length / 2]
  let hs := hb.hashStack ++ buf
  let ns := if hs.length > 33 * hb.nodeStack.length then hb.nodeStack ++ [none]
            else hb.nodeStack
  { hashStack := hs, nodeStack := ns, dataLenStack := ds, hashBuf := buf }

/-- The LEAF opcode: rejects a negative length, takes the trailing nibbles
of keyHex, pushes the short node and its slot. -/
def HashBuilder.leaf (hb : HashBuilder) (len : Int) (keyHex : List Nat) (val : RlpVal) :
    Except String HashBuilder :=
  if len < 0 then .error "negative length"
  else if keyHex.length < len.toNat then .error "panic: key slice"
  else
    let key := keyHex.drop (keyHex.length - len.toNat)
    .ok (HashBuilder.leafHashWithKeyVal
      { hb with nodeStack := hb.nodeStack ++ [some .short] } key val)

/-- The RLP of an account as hashed into the trie.
Modelled from the spec: accounts.Account.EncodeForHashing is not part of
the repository snapshot; scenario S4 of the spec fixes the hashed account
value as the RLP of the account record (nonce, balance, root, code hash). -/
def Account.encodingForHashing (a : Account) : List Nat :=
  rlpEncList [rlpEncNat a.nonce, rlpEncNat a.balance, rlpEncBytes a.root,
    rlpEncBytes a.codeHash]

/-- Length of the account encoded for the flat state table.
Modelled from the spec: accounts.Account.EncodingLengthForStorage is not
part of the repository snapshot; section 6 of the spec fixes the on-disk
account record layout, which the state package mirrors in
accountToEncoding. -/
def Account.encodingLengthForStorage (a : Account) : Nat := (accountToEncoding a).length

/-- Internal: accountLeafHashWithKey pops the given number of slots from
the three stacks, pushes the account-leaf slot, a nil node, and the
witness length (two opcode bytes plus the storage encoding length plus
half a key plus the consumed children). -/
def HashBuilder.accountLeafHashWithKey (hb : HashBuilder) (key : List Nat) (acc : Account)
    (popped : Nat) : Except String HashBuilder :=
  if hb.dataLenStack.length < popped ∨ hb.nodeStack.length < popped ∨
      hb.hashStack.length < 33 * popped then
    .error "panic: stack underflow"
  else
    let buf := completeLeafHash hb.hashBuf
      (leafStream key (rlpEncBytes acc.encodingForHashing))
    let dataLen := 1 + acc.encodingLengthForStorage + 1 + key.length / 2 +
      ((hb.dataLenStack.drop (hb.dataLenStack.length - popped)).foldl (· + ·) 0)
    .ok { hashStack := hb.hashStack.take (hb.hashStack.length - 33 * popped) ++ buf,
          nodeStack := hb.nodeStack.take (hb.nodeStack.length - popped) ++ [none],
          dataLenStack := hb.dataLenStack.take (hb.dataLenStack.length - popped) ++ [dataLen],
          hashBuf := buf }

def isNilOrCode : Option HBNode → Bool
  | none => true
  | some (.codeN _) => true
  | some _ => false

/-- The ACCOUNT_LEAF opcode: reads the storage root from the stack when
bit 2 of the field set is present and the code hash when bit 3 is, checks
that a non-nil node under a non-empty code hash is a code node, then pops
the consumed slots and pushes the account short node.  The incarnation
argument is carried by the source into the working account but does not
enter any encoding, so it is ignored here. -/
def HashBuilder.accountLeaf (hb : HashBuilder) (len : Int) (keyHex : List Nat)
    (balance nonce _incarnation fieldSet : Nat) : Except String HashBuilder :=
  if len < 0 ∨ keyHex.length < len.toNat then .error "panic: key slice"
  else
    let key := keyHex.drop (keyHex.length - len.toNat)
    if fieldSet &&& 4 ≠ 0 ∧ hb.hashStack.length < 32 then .error "panic: hash stack"
    else
      let root := if fieldSet &&& 4 ≠ 0 then hb.hashStack.drop (hb.hashStack.length - 32)
                  else emptyRootBytes
      if fieldSet &&& 4 ≠ 0 ∧ root ≠ emptyRootBytes ∧
          (hb.nodeStack = [] ∨ hb.dataLenStack = []) then .error "panic: node stack"
      else
        let popped1 := if fieldSet &&& 4 ≠ 0 then 1 else 0
        if fieldSet &&& 8 ≠ 0 ∧ hb.hashStack.length < popped1 * 33 + 32 then
          .error "panic: hash stack"
        else
          let codeHash :=
            if fieldSet &&& 8 ≠ 0 then
              (hb.hashStack.drop (hb.hashStack.length - popped1 * 33 - 32)).take 32
            else emptyCodeHashBytes
          if fieldSet &&& 8 ≠ 0 ∧ codeHash ≠ emptyCodeHashBytes ∧
              hb.nodeStack.length < popped1 + 1 then .error "panic: node stack"
          else if fieldSet &&& 8 ≠ 0 ∧ codeHash ≠ emptyCodeHashBytes ∧
              ¬ isNilOrCode (hb.nodeStack.getD (hb.nodeStack.length - popped1 - 1) none) then
            .error "unexpected node type on the node stack"
          else
            let popped := popped1 + (if fieldSet &&& 8 ≠ 0 then 1 else 0)
            let acc : Account := { nonce := nonce, balance := balance, root := root,
                                   codeHash := codeHash, storageSize := none }
            match hb.accountLeafHashWithKey key acc popped with
            | .error e => .error e
            | .ok hb1 =>
              .ok { hb1 with
                  nodeStack := hb1.nodeStack.take (hb1.nodeStack.length - 1) ++ [some .short] }

/-- Internal: extensionHash wraps the top hash-stack slot in a short node
with the given key, replacing the slot with the Keccak of the new RLP and
adding one opcode byte plus half a key to the top witness length; a full
node on top of the node stack is an error. -/
def HashBuilder.extensionHash (hb : HashBuilder) (key : List Nat) : Except String HashBuilder :=
  if hb.hashStack.length < 33 ∨ hb.dataLenStack = [] ∨ hb.nodeStack = [] then
    .error "panic: stack"
  else
    let childSlot := hb.hashStack.drop (hb.hashStack.length - 33)
    let stream := rlpListHeader ((keyPart key).length + 33) ++ keyPart key ++ childSlot
    if (match hb.nodeStack.getLast? with
        | some (some .full) => true
        | _ => false) then
      .error "extensionHash cannot be emitted when a node is on top of the stack"
    else
      .ok { hb with
          hashStack := hb.hashStack.take (hb.hashStack.length - 33) ++ 0xa0 :: keccak256 stream,
          dataLenStack := hb.dataLenStack.take (hb.dataLenStack.length - 1) ++
            [1 + key.length / 2 + (hb.dataLenStack.getLast?.getD 0)] }

/-- The EXTENSION opcode: requires a nil or full node on top of the node
stack, replaces it with the extension short node and rehashes the top
slot. -/
def HashBuilder.extension (hb : HashBuilder) (key : List Nat) : Except String HashBuilder :=
  match hb.nodeStack.getLast? with
  | Option.none => .error "panic: node stack"
  | Option.some nd =>
    match nd with
    | none =>
      if hb.hashStack.length < 32 ∨ hb.dataLenStack = [] then .error "panic: stack"
      else
        HashBuilder.extensionHash
          { hb with nodeStack := hb.nodeStack.take (hb.nodeStack.length - 1) ++ [some .short] } key
    | some .full =>
      HashBuilder.extensionHash
        { hb with nodeStack := hb.nodeStack.take (hb.nodeStack.length - 1) ++ [some .short] } key
    | some _ => .error "wrong Val type for an extension"

end TG

namespace TG

/-! ### The BRANCH opcode and the remaining opcodes -/

/-- Whether the Go expression (uint16(1) << digit) & set is non-zero: the
shift is 16-bit, so digit 16 always yields zero. -/
def bitSet16 (set d : Nat) : Bool := ((1 <<< d) % 65536) &&& set ≠ 0

/-- Population count of a 16-bit mask (bits.OnesCount16). -/
def onesCount16 (set : Nat) : Nat := ((List.range 16).filter (fun d => bitSet16 set d)).length

/-- The bytes of one child written into the branch RLP: a full 33-byte slot
when the slot holds a hash reference (prefix 0x80+32), otherwise the
embedded RLP, whose length is read off the list-header byte. -/
def childPiece (slot : List Nat) : List Nat :=
  if slot.headD 0 = 0xa0 then slot.take 33
  else slot.take (slot.headD 0 - 0xc0 + 1)

/-- The contribution of one child to the branch payload size (the totalSize
loop of branchHash): 32 for a hash reference, the embedded size otherwise;
the per-child length-prefix byte is counted separately. -/
def childSize (slot : List Nat) : Nat :=
  if slot.headD 0 = 0xa0 then 32 else slot.headD 0 - 0xc0

/-- The child-output loop of branchHash over a list of digits: a set digit
consumes one 33-byte slot and writes its piece, an unset digit writes the
empty string 0x80. -/
def branchBodyAux (set : Nat) : List Nat → List Nat → List Nat
  | [], _ => []
  | d :: ds, slots =>
    if bitSet16 set d then childPiece (slots.take 33) ++ branchBodyAux set ds (slots.drop 33)
    else 0x80 :: branchBodyAux set ds slots

/-- The 17-element branch payload (digits 0 to 16; digit 16 is never set in
a 16-bit mask). -/
def branchBody (set : Nat) (slots : List Nat) : List Nat :=
  branchBodyAux set (List.range 17) slots

/-- The size loop of branchHash over a list of digits. -/
def branchSizeAux (set : Nat) : List Nat → List Nat → Nat
  | [], _ => 0
  | d :: ds, slots =>
    if bitSet16 set d then childSize (slots.take 33) + branchSizeAux set ds (slots.drop 33)
    else branchSizeAux set ds slots

/-- The RLP payload size of a branch node: 17 length prefixes plus the
children (digits 0 to 15). -/
def branchTotalSize (set : Nat) (slots : List Nat) : Nat :=
  17 + branchSizeAux set (List.range 16) slots

/-- Internal: branchHash pops one slot per set bit, hashes the 17-element
list and pushes the resulting slot; the witness length of the branch is
two bytes (opcode and mask) plus the consumed children.  The node stack is
shrunk only when it has outgrown the hash stack.  With an empty mask the
source writes one past the end of the witness stack, a panic. -/
def HashBuilder.branchHash (hb : HashBuilder) (set : Nat) : Except String HashBuilder :=
  let digits := onesCount16 set
  if hb.hashStack.length < 33 * digits then .error "hashStack less than digits"
  else if hb.dataLenStack.length < digits ∨ digits = 0 then .error "panic: witness stack"
  else
    let hashes := hb.hashStack.drop (hb.hashStack.length - 33 * digits)
    let stream := rlpListHeader (branchTotalSize set hashes) ++ branchBody set hashes
    let hs := hb.hashStack.take (hb.hashStack.length - 33 * digits) ++ 0xa0 :: keccak256 stream
    let dataLen := 2 + (hb.dataLenStack.drop (hb.dataLenStack.length - digits)).foldl (· + ·) 0
    let ds := hb.dataLenStack.take (hb.dataLenStack.length - digits) ++ [dataLen]
    if 33 * hb.nodeStack.length > hs.length then
      if hb.nodeStack.length < digits then .error "panic: node stack"
      else
        .ok { hashStack := hs,
              nodeStack := hb.nodeStack.take (hb.nodeStack.length - digits) ++ [none],
              dataLenStack := ds, hashBuf := hb.hashBuf }
    else
      .ok { hashStack := hs, nodeStack := hb.nodeStack, dataLenStack := ds,
            hashBuf := hb.hashBuf }

/-- The BRANCH opcode: checks the node stack depth against the popcount of
the mask, collects the children into a full node and delegates the hashing
to branchHash. -/
def HashBuilder.branch (hb : HashBuilder) (set : Nat) : Except String HashBuilder :=
  let digits := onesCount16 set
  if hb.nodeStack.length < digits then .error "nodeStack less than digits"
  else if hb.hashStack.length < 33 * digits ∨ hb.dataLenStack.length < digits then
    .error "panic: stack"
  else
    HashBuilder.branchHash
      { hb with nodeStack := hb.nodeStack.take (hb.nodeStack.length - digits) ++ [some .full] }
      set

/-- The HASH opcode: pushes a pre-computed slot (0x80+32 followed by the
hash) with the given witness length unchanged, and a nil node. -/
def HashBuilder.hash (hb : HashBuilder) (h : List Nat) (dataLen : Nat) : HashBuilder :=
  { hb with hashStack := hb.hashStack ++ 0xa0 :: h,
            nodeStack := hb.nodeStack ++ [none],
            dataLenStack := hb.dataLenStack ++ [dataLen] }

/-- The CODE opcode: pushes the code node, the witness length one plus the
code size, and the slot 0x80+32 followed by the Keccak of the code. -/
def HashBuilder.code (hb : HashBuilder) (c : List Nat) : HashBuilder :=
  { hb with nodeStack := hb.nodeStack ++ [some (.codeN c)],
            dataLenStack := hb.dataLenStack ++ [1 + c.length],
            hashStack := hb.hashStack ++ 0xa0 :: keccak256 c }

/-- The EMPTY_ROOT opcode: pushes a nil node, witness length zero, and the
slot 0x80+32 followed by the empty-trie root. -/
def HashBuilder.emptyRoot (hb : HashBuilder) : HashBuilder :=
  { hb with nodeStack := hb.nodeStack ++ [none],
            dataLenStack := hb.dataLenStack ++ [0],
            hashStack := hb.hashStack ++ 0xa0 :: emptyRootBytes }

/-- Whether the builder has a root (source: hasRoot checks the node stack). -/
def HashBuilder.hasRoot (hb : HashBuilder) : Bool := hb.nodeStack.length > 0

/-- RootHash: an error without a root, otherwise the 32 bytes after the
length-prefix byte of the top hash-stack slot. -/
def HashBuilder.RootHash (hb : HashBuilder) : Except String (List Nat) :=
  if ¬ hb.hasRoot then .error "no root in the tree"
  else .ok (hb.hashStack.drop (hb.hashStack.length - 32))

/-- The closed opcode alphabet of the HashBuilder. -/
inductive HBOp where
  | leafOp (len : Int) (keyHex : List Nat) (val : RlpVal)
  | accountLeafOp (len : Int) (keyHex : List Nat) (balance nonce incarnation fieldSet : Nat)
  | extensionOp (key : List Nat)
  | branchOp (set : Nat)
  | hashOp (h : List Nat) (witnessLen : Nat)
  | codeOp (c : List Nat)
  | emptyRootOp

/-- One opcode dispatch. -/
def HashBuilder.step (hb : HashBuilder) : HBOp → Except String HashBuilder
  | .leafOp len keyHex val => hb.leaf len keyHex val
  | .accountLeafOp len keyHex bal non inc fs => hb.accountLeaf len keyHex bal non inc fs
  | .extensionOp key => hb.extension key
  | .branchOp set => hb.branch set
  | .hashOp h w => .ok (hb.hash h w)
  | .codeOp c => .ok (hb.code c)
  | .emptyRootOp => .ok hb.emptyRoot

end TG

namespace TG

/-! ### Key utilities of the resolver (trie/resolver_test.go) -/

/-- Byte-wise increment with carry, processing the last byte first: the
reversed-list form of the loop of nextSubtree, which walks a copy of the
input from its last byte towards the first. -/
def nextSubtreeRev : List Nat → Option (List Nat)
  | [] => none
  | b :: rest =>
    if b ≠ 255 then some ((b + 1) :: rest)
    else (nextSubtreeRev rest).map (fun r => 0 :: r)

/-- nextSubtree does byte-string plus one on a copy; none on overflow. -/
def nextSubtree (l : List Nat) : Option (List Nat) :=
  (nextSubtreeRev l.reverse).map List.reverse

/-- keyIsBefore: a kind of byte compare where a nil key is after
everything; returns whether the first key comes first and the earlier
key. -/
def keyIsBefore (k1 k2 : Option (List Nat)) : Bool × Option (List Nat) :=
  match k1 with
  | none => (false, k2)
  | some a =>
    match k2 with
    | none => (true, k1)
    | some b =>
      match compareBytes a b with
      | .lt => (true, k1)
      | .eq => (true, k1)
      | .gt => (false, k2)

/-! ### The unwind path of TrieDbState (state package)

The backing store is modelled as the history index plus a log of write
operations; the RewindData walk of the history buckets lives in the ethdb
package outside this snapshot, so the row stream it would feed to the
walker is an input of the model. -/

inductive DbOp where
  | put (bucket key value : List Nat)
  | del (bucket key : List Nat)
  | delTimestamp (blockNum : Nat)
deriving Repr, DecidableEq

/-- The backing database: the history index (pairs of block number and
changeset key) and the log of issued write operations. -/
structure DB where
  history : List (Nat × List Nat)
  ops : List DbOp
deriving Repr, DecidableEq

def DB.put (db : DB) (bucket key value : List Nat) : DB :=
  { db with ops := db.ops ++ [.put bucket key value] }

def DB.del (db : DB) (bucket key : List Nat) : DB :=
  { db with ops := db.ops ++ [.del bucket key] }

/-- DeleteTimestamp drops every history entry of the given block number. -/
def DB.deleteTimestamp (db : DB) (bn : Nat) : DB :=
  { history := db.history.filter (fun e => e.1 ≠ bn),
    ops := db.ops ++ [.delTimestamp bn] }

def AccountsBucket : List Nat := [0x41, 0x54]
def AccountsHistoryBucket : List Nat := [0x68, 0x41, 0x54]
def StorageBucket : List Nat := [0x53, 0x54]
def StorageHistoryBucket : List Nat := [0x68, 0x53, 0x54]

/-- Map-style association update: replaces the entry of the key or appends
a new one (Go map assignment, with a deterministic order). -/
def setAssoc {α β : Type} [DecidableEq α] (l : List (α × β)) (k : α) (v : β) :
    List (α × β) :=
  if l.any (fun p => p.1 = k) then l.map (fun p => if p.1 = k then (k, v) else p)
  else l ++ [(k, v)]

/-- A change buffer: account updates keyed by address hash (none deletes)
and storage updates keyed by address and key hash (empty value deletes).
The read sets and the deletion set play no part in the unwind path. -/
structure Buffer where
  accountUpdates : List (List Nat × Option Account)
  storageUpdates : List ((List Nat × List Nat) × List Nat)
deriving Repr, DecidableEq

def Buffer.empty : Buffer := { accountUpdates := [], storageUpdates := [] }

/-- Merges the content of another buffer into this one. -/
def Buffer.merge (b other : Buffer) : Buffer :=
  { accountUpdates := other.accountUpdates.foldl (fun acc p => setAssoc acc p.1 p.2)
      b.accountUpdates,
    storageUpdates := other.storageUpdates.foldl (fun acc p => setAssoc acc p.1 p.2)
      b.storageUpdates }

/-- One history row as fed to the RewindData walker. -/
structure Row where
  bucket : List Nat
  key : List Nat
  value : List Nat
deriving Repr, DecidableEq

/-- The body of the RewindData walker of UnwindTo: an accounts-history row
decodes its value into an account update (an empty value is a deletion), a
storage-history row stores its value under the address and key hash. -/
def replayRow (b : Buffer) (r : Row) : Except Unit Buffer :=
  if r.bucket = AccountsHistoryBucket then
    if r.value.length > 0 then
      match encodingToAccount r.value with
      | .ok acc => .ok { b with accountUpdates := setAssoc b.accountUpdates (r.key.take 32) acc }
      | .error _ => .error ()
    else .ok { b with accountUpdates := setAssoc b.accountUpdates (r.key.take 32) none }
  else if r.bucket = StorageHistoryBucket then
    .ok { b with storageUpdates := setAssoc b.storageUpdates (r.key.take 20, r.key.drop 20) r.value }
  else .ok b

def replayRows (b : Buffer) : List Row → Except Unit Buffer
  | [] => .ok b
  | r :: rest =>
    match replayRow b r with
    | .ok b1 => replayRows b1 rest
    | .error e => .error e

/-- The state object, reduced to the fields the unwind path touches.  The
in-memory tries and the per-buffer list feed only the trie-root
computation, which operates outside this model. -/
structure TrieDbState where
  blockNr : Nat
  currentBuffer : Option Buffer
  aggregateBuffer : Option Buffer
deriving Repr, DecidableEq

/-- StartNewBuffer merges the current buffer into the aggregate and opens a
fresh current buffer. -/
def TrieDbState.StartNewBuffer (tds : TrieDbState) : TrieDbState :=
  match tds.currentBuffer with
  | some cb =>
    { tds with aggregateBuffer := some ((tds.aggregateBuffer.getD Buffer.empty).merge cb),
               currentBuffer := some Buffer.empty }
  | none => { tds with currentBuffer := some Buffer.empty }

/-- The buffer-aggregation step of computeTrieRoots: the current buffer is
merged into the aggregate.  The resolve and trie-update work of
computeTrieRoots acts on the in-memory tries, outside this model. -/
def TrieDbState.computeTrieRootsModel (tds : TrieDbState) : TrieDbState :=
  match tds.currentBuffer with
  | some cb =>
    { tds with aggregateBuffer := some ((tds.aggregateBuffer.getD Buffer.empty).merge cb) }
  | none => tds

def TrieDbState.clearUpdates (tds : TrieDbState) : TrieDbState :=
  { tds with currentBuffer := none, aggregateBuffer := none }

/-- The account write-back loop of UnwindTo. -/
def writeAccountChanges (db : DB) (l : List (List Nat × Option Account)) : DB :=
  l.foldl (fun d p =>
    match p.2 with
    | none => d.del AccountsBucket p.1
    | some acc => d.put AccountsBucket p.1 (accountToEncoding acc)) db

/-- The storage write-back loop of UnwindTo. -/
def writeStorageChanges (db : DB) (l : List ((List Nat × List Nat) × List Nat)) : DB :=
  l.foldl (fun d p =>
    if p.2.length = 0 then d.del StorageBucket (p.1.1 ++ p.1.2)
    else d.put StorageBucket (p.1.1 ++ p.1.2) p.2) db

/-- The timestamp-deletion loop of UnwindTo, with fuel equal to the number
of iterations of (for i from the current block while i is above the target,
downwards). -/
def deleteTimestampsFrom (db : DB) (i : Nat) : Nat → DB
  | 0 => db
  | k + 1 => deleteTimestampsFrom (db.deleteTimestamp i) (i - 1) k

/-- UnwindTo: opens a fresh buffer, replays the history rows through it,
aggregates, writes the aggregated account and storage changes back to the
flat buckets, deletes every history timestamp from the current block down
to one above the target, clears the buffers and moves the block number to
the target. -/
def TrieDbState.UnwindTo (tds : TrieDbState) (db : DB) (rows : List Row) (blockNr : Nat) :
    Except Unit (TrieDbState × DB) :=
  let tds1 := tds.StartNewBuffer
  match replayRows (tds1.currentBuffer.getD Buffer.empty) rows with
  | .error e => .error e
  | .ok b =>
    let tds3 := TrieDbState.computeTrieRootsModel { tds1 with currentBuffer := some b }
    let agg := tds3.aggregateBuffer.getD Buffer.empty
    let db1 := writeAccountChanges db agg.accountUpdates
    let db2 := writeStorageChanges db1 agg.storageUpdates
    let db3 := deleteTimestampsFrom db2 tds.blockNr (tds.blockNr - blockNr)
    .ok ({ tds3.clearUpdates with blockNr := blockNr }, db3)

end TG

namespace TG

/-! ### Shared helper lemmas -/

theorem keccak256_length (msg : List Nat) : (keccak256 msg).length = 32 := by
  simp only [keccak256, List.length_flatMap, Function.comp_def, laneBytes,
    List.length_map, List.length_range]
  rfl

theorem compareBytes_self (x : List Nat) : compareBytes x x = .eq := by
  induction x with
  | nil => rfl
  | cons a as ih => simp [compareBytes, ih]

theorem compareBytes_lt_iff (x y : List Nat) :
    compareBytes x y = .lt ↔ bytesLtB x y = true := by
  induction x generalizing y with
  | nil => cases y <;> simp [compareBytes, bytesLtB]
  | cons a as ih =>
    cases y with
    | nil => simp [compareBytes, bytesLtB]
    | cons b bs =>
      by_cases h1 : a < b
      · simp [compareBytes, bytesLtB, h1]
      · by_cases h2 : b < a
        · simp [compareBytes, bytesLtB, h1, h2]
          omega
        · have hab : a = b := by omega
          simp [compareBytes, bytesLtB, h1, h2, hab, ih]

theorem completeLeafHash_length (hashBuf stream : List Nat) (h : hashBuf.length = 33) :
    (completeLeafHash hashBuf stream).length = 33 := by
  unfold completeLeafHash
  split_ifs with hs
  · simp [List.length_append, List.length_drop, h]
    omega
  · simp [keccak256_length]

/-- The three-stack synchronization invariant, together with the size of
the persistent slot buffer. -/
def HashBuilder.wf (hb : HashBuilder) : Prop :=
  hb.hashStack.length = 33 * hb.dataLenStack.length ∧
  hb.nodeStack.length = hb.dataLenStack.length ∧
  hb.hashBuf.length = 33

/-- Number of slots the ACCOUNT_LEAF opcode pops for a given field set:
one for the storage root (bit 2), one for the code hash (bit 3). -/
def accountPopped (fs : Nat) : Nat :=
  (if fs &&& 4 ≠ 0 then 1 else 0) + (if fs &&& 8 ≠ 0 then 1 else 0)

/-- The account record the ACCOUNT_LEAF opcode assembles and encodes: the
nonce and balance of the opcode, the storage root read from the top of the
hash stack when bit 2 of the field set is present (else the empty root),
and the code hash read from the slot below it when bit 3 is present (else
the empty code hash). -/
def accountLeafAcc (hb : HashBuilder) (balance nonce fieldSet : Nat) : Account :=
  { nonce := nonce, balance := balance,
    root := if fieldSet &&& 4 ≠ 0 then hb.hashStack.drop (hb.hashStack.length - 32)
            else emptyRootBytes,
    codeHash := if fieldSet &&& 8 ≠ 0 then
        (hb.hashStack.drop (hb.hashStack.length -
          (if fieldSet &&& 4 ≠ 0 then 1 else 0) * 33 - 32)).take 32
      else emptyCodeHashBytes,
    storageSize := none }

section StackLemmas

attribute [local irreducible] rlpEncBytes rlpListHeader rlpEncList keccak256
  accountToEncoding Account.encodingForHashing Account.encodingLengthForStorage
  leafStream completeLeafHash branchBody branchTotalSize

theorem leaf_dataLen_push (hb : HashBuilder) (len : Int) (keyHex : List Nat) (val : RlpVal)
    (hb' : HashBuilder) (hok : hb.leaf len keyHex val = .ok hb') :
    hb'.dataLenStack = hb.dataLenStack ++
      [val.raw.length + 1 + (keyHex.drop (keyHex.length - len.toNat)).length / 2] := by
  unfold HashBuilder.leaf at hok
  split_ifs at hok
  cases hok
  rfl

theorem extensionHash_dataLen_push (hb : HashBuilder) (key : List Nat) (hb' : HashBuilder)
    (hok : hb.extensionHash key = .ok hb') :
    hb'.dataLenStack = hb.dataLenStack.take (hb.dataLenStack.length - 1) ++
      [1 + key.length / 2 + hb.dataLenStack.getLast?.getD 0] := by
  unfold HashBuilder.extensionHash at hok
  split_ifs at hok
  cases hok
  rfl

theorem extension_dataLen_push (hb : HashBuilder) (key : List Nat) (hb' : HashBuilder)
    (hok : hb.extension key = .ok hb') :
    hb'.dataLenStack = hb.dataLenStack.take (hb.dataLenStack.length - 1) ++
      [1 + key.length / 2 + hb.dataLenStack.getLast?.getD 0] := by
  unfold HashBuilder.extension at hok
  rcases hnd : hb.nodeStack.getLast? with _ | nd
  · rw [hnd] at hok; cases hok
  · rw [hnd] at hok
    rcases nd with _ | n
    · dsimp only [] at hok
      split_ifs at hok
      exact extensionHash_dataLen_push
        { hb with nodeStack := List.take (hb.nodeStack.length - 1) hb.nodeStack ++ [some HBNode.short] }
        key hb' hok
    · cases n with
      | short => cases hok
      | full =>
        dsimp only [] at hok
        exact extensionHash_dataLen_push
          { hb with nodeStack := List.take (hb.nodeStack.length - 1) hb.nodeStack ++ [some HBNode.short] }
          key hb' hok
      | codeN c => cases hok

theorem branchHash_dataLen_push (hb : HashBuilder) (set : Nat) (hb' : HashBuilder)
    (hok : hb.branchHash set = .ok hb') :
    hb'.dataLenStack = hb.dataLenStack.take (hb.dataLenStack.length - onesCount16 set) ++
      [2 + (hb.dataLenStack.drop (hb.dataLenStack.length - onesCount16 set)).foldl (· + ·) 0] := by
  simp only [HashBuilder.branchHash] at hok
  split_ifs at hok <;> cases hok <;> rfl

theorem branch_dataLen_push (hb : HashBuilder) (set : Nat) (hb' : HashBuilder)
    (hok : hb.branch set = .ok hb') :
    hb'.dataLenStack = hb.dataLenStack.take (hb.dataLenStack.length - onesCount16 set) ++
      [2 + (hb.dataLenStack.drop (hb.dataLenStack.length - onesCount16 set)).foldl (· + ·) 0] := by
  simp only [HashBuilder.branch] at hok
  split_ifs at hok
  exact branchHash_dataLen_push
    { hb with nodeStack :=
        List.take (hb.nodeStack.length - onesCount16 set) hb.nodeStack ++ [some HBNode.full] }
    set hb' hok

theorem accountLeafHash_dataLen_push (hb : HashBuilder) (key : List Nat) (acc : Account)
    (popped : Nat) (hb' : HashBuilder)
    (hok : hb.accountLeafHashWithKey key acc popped = .ok hb') :
    hb'.dataLenStack = hb.dataLenStack.take (hb.dataLenStack.length - popped) ++
      [1 + acc.encodingLengthForStorage + 1 + key.length / 2 +
        (hb.dataLenStack.drop (hb.dataLenStack.length - popped)).foldl (· + ·) 0] := by
  unfold HashBuilder.accountLeafHashWithKey at hok
  split_ifs at hok
  cases hok
  rfl

set_option maxHeartbeats 2000000 in
theorem accountLeaf_dataLen_push (hb : HashBuilder) (len : Int) (keyHex : List Nat)
    (bal non inc fs : Nat) (hb' : HashBuilder)
    (hok : hb.accountLeaf len keyHex bal non inc fs = .ok hb') :
    hb'.dataLenStack = hb.dataLenStack.take (hb.dataLenStack.length - accountPopped fs) ++
      [1 + (accountLeafAcc hb bal non fs).encodingLengthForStorage + 1 +
        (keyHex.drop (keyHex.length - len.toNat)).length / 2 +
        (hb.dataLenStack.drop (hb.dataLenStack.length - accountPopped fs)).foldl (· + ·) 0] := by
  simp only [HashBuilder.accountLeaf] at hok
  split_ifs at hok <;>
    (split at hok
     · exact absurd hok (by simp)
     · rename_i hb1 heq
       cases hok
       simpa [accountPopped, accountLeafAcc, *] using
         accountLeafHash_dataLen_push _ _ _ _ _ heq)

theorem leafHashWithKeyVal_wf (hb : HashBuilder) (key : List Nat) (val : RlpVal)
    (h1 : hb.hashStack.length = 33 * hb.dataLenStack.length)
    (h2 : hb.nodeStack.length = hb.dataLenStack.length + 1)
    (h3 : hb.hashBuf.length = 33) :
    (hb.leafHashWithKeyVal key val).wf := by
  have hbuf := completeLeafHash_length hb.hashBuf (leafStream key val.double) h3
  have hcond : ¬ (hb.hashStack ++ completeLeafHash hb.hashBuf (leafStream key val.double)).length
      > 33 * hb.nodeStack.length := by
    simp [List.length_append, hbuf]
    try omega
  unfold HashBuilder.leafHashWithKeyVal HashBuilder.wf
  simp only [if_neg hcond]
  simp [List.length_append, hbuf, h1, h2]
  try omega

theorem leaf_wf (hb : HashBuilder) (len : Int) (keyHex : List Nat) (val : RlpVal)
    (hb' : HashBuilder) (hwf : hb.wf) (hok : hb.leaf len keyHex val = .ok hb') : hb'.wf := by
  obtain ⟨w1, w2, w3⟩ := hwf
  unfold HashBuilder.leaf at hok
  split_ifs at hok
  cases hok
  exact leafHashWithKeyVal_wf _ _ _ w1 (by simp [w2]) w3

theorem extensionHash_wf (hb : HashBuilder) (key : List Nat) (hb' : HashBuilder)
    (hwf : hb.wf) (hok : hb.extensionHash key = .ok hb') : hb'.wf := by
  obtain ⟨w1, w2, w3⟩ := hwf
  simp only [HashBuilder.extensionHash] at hok
  split_ifs at hok with hg hf
  cases hok
  push_neg at hg
  obtain ⟨g1, g2, g3⟩ := hg
  have hd : 0 < hb.dataLenStack.length := List.length_pos.mpr g2
  refine ⟨?_, ?_, w3⟩ <;>
    (simp only [List.length_append, List.length_take, List.length_cons, List.length_nil,
      keccak256_length, w1, w2]
     omega)

theorem extension_wf (hb : HashBuilder) (key : List Nat) (hb' : HashBuilder)
    (hwf : hb.wf) (hok : hb.extension key = .ok hb') : hb'.wf := by
  obtain ⟨w1, w2, w3⟩ := hwf
  unfold HashBuilder.extension at hok
  rcases hnd : hb.nodeStack.getLast? with _ | nd
  · rw [hnd] at hok; cases hok
  · rw [hnd] at hok
    have hne : hb.nodeStack ≠ [] := by
      intro he; rw [he] at hnd; simp at hnd
    have hnpos : 0 < hb.nodeStack.length := List.length_pos.mpr hne
    rcases nd with _ | n
    · dsimp only [] at hok
      split_ifs at hok
      refine extensionHash_wf
        { hb with nodeStack := List.take (hb.nodeStack.length - 1) hb.nodeStack ++ [some HBNode.short] }
        key hb' ⟨?_, ?_, w3⟩ hok <;>
        (simp only [List.length_append, List.length_take, List.length_cons, List.length_nil, w1, w2]
         try omega)
    · cases n with
      | short => cases hok
      | full =>
        dsimp only [] at hok
        refine extensionHash_wf
          { hb with nodeStack := List.take (hb.nodeStack.length - 1) hb.nodeStack ++ [some HBNode.short] }
          key hb' ⟨?_, ?_, w3⟩ hok <;>
          (simp only [List.length_append, List.length_take, List.length_cons, List.length_nil, w1, w2]
           try omega)
      | codeN c => cases hok

theorem branchHash_wf_of (hb : HashBuilder) (set : Nat) (hb' : HashBuilder)
    (h1 : hb.hashStack.length = 33 * hb.dataLenStack.length)
    (h2 : hb.nodeStack.length = hb.dataLenStack.length + 1 - onesCount16 set)
    (h2b : onesCount16 set ≤ hb.dataLenStack.length)
    (h3 : hb.hashBuf.length = 33)
    (hok : hb.branchHash set = .ok hb') : hb'.wf := by
  simp only [HashBuilder.branchHash] at hok
  split_ifs at hok with g1 g2 g3 g4
  all_goals cases hok
  · exfalso
    rw [List.length_append, List.length_take, List.length_cons, keccak256_length] at g3
    omega
  · refine ⟨?_, ?_, h3⟩ <;>
      (simp only [List.length_append, List.length_take, List.length_cons, keccak256_length,
        List.length_nil]
       try omega)

theorem branch_wf (hb : HashBuilder) (set : Nat) (hb' : HashBuilder)
    (hwf : hb.wf) (hok : hb.branch set = .ok hb') : hb'.wf := by
  obtain ⟨w1, w2, w3⟩ := hwf
  simp only [HashBuilder.branch] at hok
  split_ifs at hok with g1 g2
  push_neg at g1 g2
  refine branchHash_wf_of
    { hb with nodeStack :=
        List.take (hb.nodeStack.length - onesCount16 set) hb.nodeStack ++ [some HBNode.full] }
    set hb' w1 ?_ ?_ w3 hok
  · show (List.take (hb.nodeStack.length - onesCount16 set) hb.nodeStack ++
      [some HBNode.full]).length = hb.dataLenStack.length + 1 - onesCount16 set
    simp only [List.length_append, List.length_take, List.length_cons, List.length_nil]
    omega
  · show onesCount16 set ≤ hb.dataLenStack.length
    omega

theorem accountLeafHash_wf (hb : HashBuilder) (key : List Nat) (acc : Account)
    (popped : Nat) (hb' : HashBuilder) (hwf : hb.wf)
    (hok : hb.accountLeafHashWithKey key acc popped = .ok hb') : hb'.wf := by
  obtain ⟨w1, w2, w3⟩ := hwf
  simp only [HashBuilder.accountLeafHashWithKey] at hok
  split_ifs at hok with g
  cases hok
  push_neg at g
  obtain ⟨g1, g2, g3⟩ := g
  have hbuf := completeLeafHash_length hb.hashBuf
    (leafStream key (rlpEncBytes acc.encodingForHashing)) w3
  refine ⟨?_, ?_, hbuf⟩ <;>
    (simp only [List.length_append, List.length_take, List.length_cons, List.length_nil, hbuf]
     try omega)

set_option maxHeartbeats 4000000 in
theorem accountLeaf_wf (hb : HashBuilder) (len : Int) (keyHex : List Nat)
    (bal non inc fs : Nat) (hb' : HashBuilder) (hwf : hb.wf)
    (hok : hb.accountLeaf len keyHex bal non inc fs = .ok hb') : hb'.wf := by
  simp only [HashBuilder.accountLeaf] at hok
  split_ifs at hok <;>
    (split at hok
     · exact Except.noConfusion hok
     · rename_i hb1 heq
       obtain ⟨v1, v2, v3⟩ := accountLeafHash_wf _ _ _ _ _ hwf heq
       have hds := accountLeafHash_dataLen_push _ _ _ _ _ heq
       obtain rfl := Except.ok.inj hok
       have hn : 0 < hb1.nodeStack.length := by
         rw [v2, hds]
         simp only [List.length_append, List.length_cons, List.length_nil]
         omega
       refine ⟨v1, ?_, v3⟩
       show (List.take (hb1.nodeStack.length - 1) hb1.nodeStack ++
         [some HBNode.short]).length = hb1.dataLenStack.length
       simp only [List.length_append, List.length_take, List.length_cons, List.length_nil]
       omega)


theorem hash_wf (hb : HashBuilder) (h : List Nat) (w : Nat) (hwf : hb.wf)
    (hlen : h.length = 32) : (hb.hash h w).wf := by
  obtain ⟨w1, w2, w3⟩ := hwf
  refine ⟨?_, ?_, w3⟩ <;>
    (simp only [HashBuilder.hash, List.length_append, List.length_cons, hlen,
      List.length_nil, w1, w2]
     try omega)

theorem code_wf (hb : HashBuilder) (c : List Nat) (hwf : hb.wf) : (hb.code c).wf := by
  obtain ⟨w1, w2, w3⟩ := hwf
  refine ⟨?_, ?_, w3⟩ <;>
    (simp only [HashBuilder.code, List.length_append, List.length_cons, keccak256_length,
      List.length_nil, w1, w2]
     try omega)

theorem emptyRoot_wf (hb : HashBuilder) (hwf : hb.wf) : hb.emptyRoot.wf := by
  obtain ⟨w1, w2, w3⟩ := hwf
  have he : emptyRootBytes.length = 32 := by decide
  refine ⟨?_, ?_, w3⟩ <;>
    (simp only [HashBuilder.emptyRoot, List.length_append, List.length_cons, he,
      List.length_nil, w1, w2]
     try omega)

end StackLemmas

set_option maxRecDepth 100000 in
/-- C1: the empty-trie root constant used by the engine equals the
Keccak-256 of the RLP encoding of the empty string (the fixed 32-byte value
56e81f...3b421), and the EMPTY_ROOT opcode pushes a 33-byte hash-stack slot
whose length-prefix byte is 0x80+32 followed by exactly this constant. -/
theorem c1_empty_root_constant :
    emptyRootBytes = keccak256 (rlpEncBytes []) ∧
    emptyRootBytes.length = 32 ∧
    (∀ hb : HashBuilder, (HashBuilder.emptyRoot hb).hashStack =
      hb.hashStack ++ (0x80 + 32) :: emptyRootBytes) :=
  ⟨by decide, by decide, fun _ => rfl⟩

/-- C7: keyIsBefore treats a nil key as coming after every non-nil key,
otherwise compares byte-lexicographically (the comparison agreeing with the
strict lexicographic order), returns the earlier key, and on a byte-equal
tie reports the first key as first and returns it. -/
theorem c7_keyIsBefore :
    (∀ b, keyIsBefore none b = (false, b)) ∧
    (∀ x, keyIsBefore (some x) none = (true, some x)) ∧
    (∀ x y, keyIsBefore (some x) (some y) =
      if compareBytes x y = .gt then (false, some y) else (true, some x)) ∧
    (∀ x, keyIsBefore (some x) (some x) = (true, some x)) ∧
    (∀ x y, compareBytes x y = .lt ↔ bytesLtB x y = true) := by
  refine ⟨fun b => by cases b <;> rfl, fun x => rfl, fun x y => ?_, fun x => ?_,
    compareBytes_lt_iff⟩
  · unfold keyIsBefore
    rcases h : compareBytes x y <;> simp [h]
  · unfold keyIsBefore
    simp [compareBytes_self]

/-- C10: RootHash returns an error exactly when the (synchronized) stacks
are empty, and otherwise succeeds with the 32 bytes that follow the
length-prefix byte of the topmost hash-stack slot; being a pure function of
the builder, it modifies no stack. -/
theorem c10_rootHash (hb : HashBuilder)
    (hsync : hb.hashStack.length = 33 * hb.dataLenStack.length ∧
      hb.nodeStack.length = hb.dataLenStack.length) :
    (hb.RootHash = Except.error "no root in the tree" ↔ hb.dataLenStack = []) ∧
    (hb.dataLenStack ≠ [] →
      hb.RootHash = .ok ((hb.hashStack.drop (hb.hashStack.length - 33)).drop 1)) := by
  obtain ⟨h1, h2⟩ := hsync
  constructor
  · constructor
    · intro h
      unfold HashBuilder.RootHash HashBuilder.hasRoot at h
      by_cases hp : 0 < hb.nodeStack.length
      · simp [hp] at h
      · have : hb.dataLenStack.length = 0 := by omega
        exact List.length_eq_zero.mp this
    · intro h
      have : ¬ 0 < hb.nodeStack.length := by
        rw [h2, h]
        simp
      unfold HashBuilder.RootHash HashBuilder.hasRoot
      simp [this]
  · intro h
    have hlen : 0 < hb.dataLenStack.length := List.length_pos.mpr h
    have hpos : 0 < hb.nodeStack.length := by omega
    unfold HashBuilder.RootHash HashBuilder.hasRoot
    rw [List.drop_drop]
    have e : hb.hashStack.length - 33 + 1 = hb.hashStack.length - 32 := by omega
    simp only [e]
    simp [hpos]

/-- Witness for C10 at a concrete builder holding one slot. -/
theorem c10_rootHash_witness :
    (HashBuilder.init.emptyRoot).RootHash =
      .ok (((HashBuilder.init.emptyRoot).hashStack.drop
        ((HashBuilder.init.emptyRoot).hashStack.length - 33)).drop 1) :=
  (c10_rootHash _ (by decide)).2 (by decide)

/-- Counterexample to C4 as stated: the HASH opcode pushes the supplied
witness length unchanged (the source counts only data nodes, adding no
opcode byte for a hash node), so HASH(h, 5) pushes 5 and not 5 + 1. -/
theorem c4_counterexample :
    HashBuilder.init.step (.hashOp (List.replicate 32 0) 5) =
      .ok { hashStack := 0xa0 :: List.replicate 32 0, nodeStack := [none],
            dataLenStack := [5], hashBuf := List.replicate 33 0 } ∧
    (5 : Nat) ≠ 5 + 1 :=
  ⟨rfl, by decide⟩

/-- C4, amended: the witness length pushed by each opcode is: the supplied
length unchanged for HASH (no opcode byte is added for hash nodes); one
opcode byte plus the code size for CODE; zero for EMPTY_ROOT; the raw value
size plus one opcode byte plus half the key for LEAF; one opcode byte plus
half the key on top of the child for EXTENSION; two bytes (opcode and mask)
plus the consumed children for BRANCH; and, for ACCOUNT_LEAF, two opcode
bytes plus half the key plus the consumed children plus the
encoded-for-storage length of the account the opcode actually encodes (the
record assembled from the instruction nonce and balance and the root and
code hash read off the hash stack per the field set). -/
theorem c4_amended_witness_lengths :
    (∀ (hb : HashBuilder) (h : List Nat) (w : Nat),
      (hb.hash h w).dataLenStack = hb.dataLenStack ++ [w]) ∧
    (∀ (hb : HashBuilder) (c : List Nat),
      (hb.code c).dataLenStack = hb.dataLenStack ++ [1 + c.length]) ∧
    (∀ hb : HashBuilder, hb.emptyRoot.dataLenStack = hb.dataLenStack ++ [0]) ∧
    (∀ (hb : HashBuilder) (len : Int) (keyHex : List Nat) (val : RlpVal) (hb' : HashBuilder),
      hb.leaf len keyHex val = .ok hb' →
      hb'.dataLenStack = hb.dataLenStack ++
        [val.raw.length + 1 + (keyHex.drop (keyHex.length - len.toNat)).length / 2]) ∧
    (∀ (hb : HashBuilder) (key : List Nat) (hb' : HashBuilder),
      hb.extension key = .ok hb' →
      hb'.dataLenStack = hb.dataLenStack.take (hb.dataLenStack.length - 1) ++
        [1 + key.length / 2 + hb.dataLenStack.getLast?.getD 0]) ∧
    (∀ (hb : HashBuilder) (set : Nat) (hb' : HashBuilder),
      hb.branch set = .ok hb' →
      hb'.dataLenStack = hb.dataLenStack.take (hb.dataLenStack.length - onesCount16 set) ++
        [2 + (hb.dataLenStack.drop (hb.dataLenStack.length - onesCount16 set)).foldl (· + ·) 0]) ∧
    (∀ (hb : HashBuilder) (len : Int) (keyHex : List Nat) (bal non inc fs : Nat)
        (hb' : HashBuilder),
      hb.accountLeaf len keyHex bal non inc fs = .ok hb' →
      hb'.dataLenStack = hb.dataLenStack.take (hb.dataLenStack.length - accountPopped fs) ++
        [1 + (accountLeafAcc hb bal non fs).encodingLengthForStorage + 1 +
          (keyHex.drop (keyHex.length - len.toNat)).length / 2 +
          (hb.dataLenStack.drop (hb.dataLenStack.length - accountPopped fs)).foldl (· + ·) 0]) :=
  ⟨fun _ _ _ => rfl, fun _ _ => rfl, fun _ => rfl, leaf_dataLen_push, extension_dataLen_push,
   branch_dataLen_push, accountLeaf_dataLen_push⟩

/-- Concrete builder produced by a small LEAF opcode, for the C4 witness. -/
def c4wHB : HashBuilder :=
  (HashBuilder.init.leaf 2 [1, 16] ⟨[0x35], [0x35]⟩).toOption.getD HashBuilder.init

/-- Witness for the amended C4 at a concrete LEAF instruction. -/
theorem c4_amended_witness :
    HashBuilder.init.leaf 2 [1, 16] ⟨[0x35], [0x35]⟩ = .ok c4wHB ∧
    c4wHB.dataLenStack = [3] := by
  have h : HashBuilder.init.leaf 2 [1, 16] ⟨[0x35], [0x35]⟩ = .ok c4wHB := rfl
  refine ⟨h, ?_⟩
  have h2 := c4_amended_witness_lengths.2.2.2.1 HashBuilder.init 2 [1, 16] ⟨[0x35], [0x35]⟩
    c4wHB h
  simpa using h2

/-- C3: after each HashBuilder opcode of the closed alphabet (leaf,
accountLeaf, extension, branch, hash, code, emptyRoot) returns without
error, the three stacks are synchronized: the flat hash stack holds 33
bytes per witness-stack entry and the node stack one node per entry (the
33-byte scratch buffer keeps its size as well).  The hash argument of a
HASH opcode is a 32-byte hash, as the opcode alphabet prescribes. -/
theorem c3_stacks_synchronized (hb : HashBuilder) (op : HBOp) (hb' : HashBuilder)
    (hwf : hb.hashStack.length = 33 * hb.dataLenStack.length ∧
      hb.nodeStack.length = hb.dataLenStack.length ∧ hb.hashBuf.length = 33)
    (hop : ∀ h w, op = .hashOp h w → h.length = 32)
    (hok : hb.step op = .ok hb') :
    hb'.hashStack.length = 33 * hb'.dataLenStack.length ∧
    hb'.nodeStack.length = hb'.dataLenStack.length ∧ hb'.hashBuf.length = 33 := by
  cases op with
  | leafOp len keyHex val => exact leaf_wf _ _ _ _ _ hwf hok
  | accountLeafOp len keyHex bal non inc fs => exact accountLeaf_wf hb len keyHex bal non inc fs hb' hwf hok
  | extensionOp key => exact extension_wf _ _ _ hwf hok
  | branchOp set => exact branch_wf _ _ _ hwf hok
  | hashOp h w =>
    cases hok
    exact hash_wf _ _ _ hwf (hop h w rfl)
  | codeOp c =>
    cases hok
    exact code_wf _ _ hwf
  | emptyRootOp =>
    cases hok
    exact emptyRoot_wf _ hwf

/-- Witness for C3 at the EMPTY_ROOT opcode on a fresh builder. -/
theorem c3_stacks_synchronized_witness :
    (HashBuilder.init.emptyRoot).hashStack.length =
      33 * (HashBuilder.init.emptyRoot).dataLenStack.length ∧
    (HashBuilder.init.emptyRoot).nodeStack.length =
      (HashBuilder.init.emptyRoot).dataLenStack.length ∧
    (HashBuilder.init.emptyRoot).hashBuf.length = 33 :=
  c3_stacks_synchronized HashBuilder.init .emptyRootOp _ (by decide)
    (fun h w hc => HBOp.noConfusion hc) rfl

/-! ### C6: correctness of nextSubtree -/

theorem beNat_append_singleton (xs : List Nat) (b : Nat) :
    beNat (xs ++ [b]) = 256 * beNat xs + b := by
  unfold beNat
  rw [List.foldl_append]
  simp [Nat.mul_comm]

theorem leNat_eq_beNat_reverse (l : List Nat) : leNat l = beNat l.reverse := by
  induction l with
  | nil => rfl
  | cons b rest ih =>
    simp only [leNat, List.reverse_cons, beNat_append_singleton, ih]
    omega

theorem beNat_foldl (acc : Nat) (l : List Nat) :
    l.foldl (fun a b => a * 256 + b) acc = acc * 256 ^ l.length + beNat l := by
  induction l generalizing acc with
  | nil => simp [beNat]
  | cons x xs ih =>
    rw [List.foldl_cons, ih]
    have hx : beNat (x :: xs) = x * 256 ^ xs.length + beNat xs := by
      show List.foldl (fun a b => a * 256 + b) (0 * 256 + x) xs = _
      rw [ih]
      ring
    rw [hx, List.length_cons, Nat.pow_succ]
    ring

theorem beNat_cons (x : Nat) (xs : List Nat) :
    beNat (x :: xs) = x * 256 ^ xs.length + beNat xs := by
  show List.foldl (fun a b => a * 256 + b) (0 * 256 + x) xs = _
  rw [beNat_foldl]
  ring

theorem head_lt_val (x y W vx vy : Nat) (hvx : vx < W) (hxy : x < y) :
    x * W + vx < y * W + vy := by
  have e : (x + 1) * W = x * W + W := by ring
  have h2 : (x + 1) * W ≤ y * W := Nat.mul_le_mul_right W hxy
  omega

theorem beNat_lt_pow (l : List Nat) (h : ∀ b ∈ l, b < 256) :
    beNat l < 256 ^ l.length := by
  induction l with
  | nil => simp [beNat]
  | cons x xs ih =>
    rw [beNat_cons]
    have hx : x < 256 := h x (by simp)
    have hxs := ih (fun b hb => h b (by simp [hb]))
    have e1 : 256 ^ (x :: xs).length = 256 * 256 ^ xs.length := by
      rw [List.length_cons, Nat.pow_succ]
      ring
    have e2 : (x + 1) * 256 ^ xs.length = x * 256 ^ xs.length + 256 ^ xs.length := by ring
    have e3 : (x + 1) * 256 ^ xs.length ≤ 256 * 256 ^ xs.length :=
      Nat.mul_le_mul_right _ (by omega)
    omega

theorem bytesLtB_iff_beNat (a : List Nat) : ∀ b : List Nat, a.length = b.length →
    (∀ x ∈ a, x < 256) → (∀ x ∈ b, x < 256) →
    (bytesLtB a b = true ↔ beNat a < beNat b) := by
  induction a with
  | nil =>
    intro b hlen _ _
    cases b with
    | nil => simp [bytesLtB]
    | cons y ys => simp at hlen
  | cons x xs ih =>
    intro b hlen ha hb
    cases b with
    | nil => simp at hlen
    | cons y ys =>
      have hlen2 : xs.length = ys.length := by simpa using hlen
      have hxa : ∀ v ∈ xs, v < 256 := fun v hv => ha v (by simp [hv])
      have hyb : ∀ v ∈ ys, v < 256 := fun v hv => hb v (by simp [hv])
      have hxs := beNat_lt_pow xs hxa
      have hys := beNat_lt_pow ys hyb
      rw [beNat_cons, beNat_cons, ← hlen2]
      constructor
      · intro hlt
        simp only [bytesLtB, Bool.or_eq_true, decide_eq_true_eq, Bool.and_eq_true,
          beq_iff_eq] at hlt
        rcases hlt with hxy | ⟨hxy, hrec⟩
        · exact head_lt_val x y _ _ _ hxs hxy
        · subst hxy
          have := (ih ys hlen2 hxa hyb).mp hrec
          omega
      · intro hval
        simp only [bytesLtB, Bool.or_eq_true, decide_eq_true_eq, Bool.and_eq_true,
          beq_iff_eq]
        rcases Nat.lt_trichotomy x y with hxy | hxy | hxy
        · exact Or.inl hxy
        · subst hxy
          refine Or.inr ⟨rfl, (ih ys hlen2 hxa hyb).mpr ?_⟩
          exact Nat.lt_of_add_lt_add_left hval
        · exfalso
          have hys2 := beNat_lt_pow ys hyb
          rw [hlen2] at hxs
          have hgt := head_lt_val y x (256 ^ ys.length) (beNat ys) (beNat xs) hys2 hxy
          rw [← hlen2] at hgt
          omega

theorem beNat_inj (a : List Nat) : ∀ b : List Nat, a.length = b.length →
    (∀ x ∈ a, x < 256) → (∀ x ∈ b, x < 256) → beNat a = beNat b → a = b := by
  induction a with
  | nil =>
    intro b hlen _ _ _
    cases b with
    | nil => rfl
    | cons y ys => simp at hlen
  | cons x xs ih =>
    intro b hlen ha hb hv
    cases b with
    | nil => simp at hlen
    | cons y ys =>
      have hlen2 : xs.length = ys.length := by simpa using hlen
      have hxa : ∀ v ∈ xs, v < 256 := fun v hv2 => ha v (by simp [hv2])
      have hyb : ∀ v ∈ ys, v < 256 := fun v hv2 => hb v (by simp [hv2])
      have hxs := beNat_lt_pow xs hxa
      have hys := beNat_lt_pow ys hyb
      rw [beNat_cons, beNat_cons, ← hlen2] at hv
      have hxy : x = y := by
        rcases Nat.lt_trichotomy x y with hc | hc | hc
        · have := head_lt_val x y (256 ^ xs.length) (beNat xs) (beNat ys) hxs hc
          omega
        · exact hc
        · rw [hlen2] at hxs
          have := head_lt_val y x (256 ^ ys.length) (beNat ys) (beNat xs) hys hc
          rw [← hlen2] at this
          omega
      subst hxy
      have : beNat xs = beNat ys := by omega
      rw [ih ys hlen2 hxa hyb this]

theorem nextSubtreeRev_none_iff (l : List Nat) :
    nextSubtreeRev l = none ↔ ∀ b ∈ l, b = 255 := by
  induction l with
  | nil => simp [nextSubtreeRev]
  | cons b rest ih =>
    simp only [nextSubtreeRev]
    by_cases hb : b = 255
    · subst hb
      rw [if_neg (by simp), Option.map_eq_none', ih]
      simp
    · rw [if_pos hb]
      simp [hb]

theorem nextSubtreeRev_some (l : List Nat) : ∀ q : List Nat, nextSubtreeRev l = some q →
    (∀ b ∈ l, b < 256) →
    q.length = l.length ∧ (∀ b ∈ q, b < 256) ∧ leNat q = leNat l + 1 := by
  induction l with
  | nil =>
    intro q hq _
    simp [nextSubtreeRev] at hq
  | cons b rest ih =>
    intro q hq hbound
    simp only [nextSubtreeRev] at hq
    by_cases hb : b = 255
    · subst hb
      rw [if_neg (by simp), Option.map_eq_some'] at hq
      obtain ⟨r, hr, hq2⟩ := hq
      subst hq2
      obtain ⟨h1, h2, h3⟩ := ih r hr (fun v hv => hbound v (by simp [hv]))
      refine ⟨by simp [h1], ?_, ?_⟩
      · intro v hv
        rcases List.mem_cons.mp hv with rfl | hv2
        · omega
        · exact h2 v hv2
      · simp only [leNat, h3]
        omega
    · rw [if_pos hb] at hq
      cases hq
      refine ⟨by simp, ?_, ?_⟩
      · intro v hv
        rcases List.mem_cons.mp hv with rfl | hv2
        · have := hbound b (by simp)
          omega
        · exact hbound v (by simp [hv2])
      · simp only [leNat]
        omega

set_option maxHeartbeats 1000000 in
/-- C6: nextSubtree returns the lexicographically smallest byte string of
the same length strictly greater than the input (byte-wise increment with
carry on a copy, so the input is not modified), and returns none exactly
when the input consists entirely of 0xFF bytes. -/
theorem c6_nextSubtree (p : List Nat) (hp : ∀ b ∈ p, b < 256) :
    (nextSubtree p = none ↔ ∀ b ∈ p, b = 255) ∧
    (∀ q, nextSubtree p = some q →
      q.length = p.length ∧ (∀ b ∈ q, b < 256) ∧ bytesLtB p q = true ∧
      ∀ r, r.length = p.length → (∀ b ∈ r, b < 256) → bytesLtB p r = true →
        q = r ∨ bytesLtB q r = true) := by
  constructor
  · rw [nextSubtree, Option.map_eq_none', nextSubtreeRev_none_iff]
    constructor
    · intro h b hb
      exact h b (List.mem_reverse.mpr hb)
    · intro h b hb
      exact h b (List.mem_reverse.mp hb)
  · intro q hq
    rw [nextSubtree, Option.map_eq_some'] at hq
    obtain ⟨r, hr, hq2⟩ := hq
    subst hq2
    have hrev : ∀ b ∈ p.reverse, b < 256 := fun b hb => hp b (List.mem_reverse.mp hb)
    obtain ⟨h1, h2, h3⟩ := nextSubtreeRev_some p.reverse r hr hrev
    have hlen : r.reverse.length = p.length := by simp [h1]
    have hbound : ∀ b ∈ r.reverse, b < 256 := fun b hb => h2 b (List.mem_reverse.mp hb)
    have hval : beNat r.reverse = beNat p + 1 := by
      have e1 : leNat r = beNat r.reverse := leNat_eq_beNat_reverse r
      have e2 : leNat p.reverse = beNat p := by
        rw [leNat_eq_beNat_reverse, List.reverse_reverse]
      omega
    have hlt : bytesLtB p r.reverse = true := by
      rw [bytesLtB_iff_beNat p r.reverse hlen.symm hp hbound]
      omega
    refine ⟨hlen, hbound, hlt, ?_⟩
    intro s hs hsb hps
    rw [bytesLtB_iff_beNat p s hs.symm hp hsb] at hps
    rcases Nat.lt_or_ge (beNat r.reverse) (beNat s) with hc | hc
    · right
      rw [bytesLtB_iff_beNat r.reverse s (by omega) hbound hsb]
      omega
    · left
      exact beNat_inj r.reverse s (by omega) hbound hsb (by omega)

/-- Witness for C6 at a concrete two-byte input with carry. -/
theorem c6_nextSubtree_witness :
    nextSubtree [0, 255] = some [1, 0] ∧ bytesLtB [0, 255] [1, 0] = true :=
  ⟨by decide, ((c6_nextSubtree [0, 255] (by decide)).2 [1, 0] (by decide)).2.2.1⟩

/-! ### C2: embedded versus hashed leaf slots -/

theorem packPairs_length : ∀ l : List Nat, (packPairs l).length = l.length / 2
  | [] => rfl
  | [_] => by simp [packPairs]
  | a :: b :: rest => by
    simp only [packPairs, List.length_cons, packPairs_length rest]
    omega

theorem leafCompact_length_le (key : List Nat) :
    (leafCompact key).length ≤ 1 + key.length / 2 := by
  unfold leafCompact
  split_ifs <;>
    simp only [List.length_cons, packPairs_length, List.length_drop] <;>
    omega

theorem leafCompact_length_pos (key : List Nat) : 0 < (leafCompact key).length := by
  unfold leafCompact
  split_ifs <;> simp

theorem leafCompact_head_lt (key : List Nat) (hkey : ∀ x ∈ key, x ≤ 16) :
    (leafCompact key).headD 0 < 0x80 := by
  have hhead : key.headD 0 ≤ 16 := by
    cases key with
    | nil => norm_num
    | cons a rest => exact hkey a (by simp)
  unfold leafCompact
  split_ifs <;> simp only [List.headD_cons] <;> omega

theorem keyPart_eq_rlpEncBytes (key : List Nat)
    (h1 : (leafCompact key).length < 56) (h2 : (leafCompact key).headD 0 < 0x80) :
    keyPart key = rlpEncBytes (leafCompact key) := by
  unfold keyPart rlpEncBytes
  by_cases hl : (leafCompact key).length > 1
  · have hnc : ¬((leafCompact key).length = 1 ∧ (leafCompact key).headD 0 < 0x80) :=
      fun h => by omega
    rw [if_pos hl, if_neg hnc, if_pos h1]
  · have hone : (leafCompact key).length = 1 := by
      have := leafCompact_length_pos key
      omega
    rw [if_neg hl, if_pos ⟨hone, h2⟩]

/-- The serialized RLP of a short node, as the spec states it: the list
header over the encoded key element followed by the value element. -/
def shortNodeRLP (compactKey double : List Nat) : List Nat :=
  rlpListHeader (rlpEncBytes compactKey ++ double).length ++ (rlpEncBytes compactKey ++ double)

theorem leafStream_eq_shortNodeRLP (key double : List Nat)
    (h1 : (leafCompact key).length < 56) (h2 : (leafCompact key).headD 0 < 0x80) :
    leafStream key double = shortNodeRLP (leafCompact key) double := by
  unfold leafStream shortNodeRLP
  rw [keyPart_eq_rlpEncBytes key h1 h2, List.length_append, List.append_assoc]

theorem leafHashWithKeyVal_slot (hb : HashBuilder) (key : List Nat) (val : RlpVal) :
    (hb.leafHashWithKeyVal key val).hashStack.drop hb.hashStack.length =
      completeLeafHash hb.hashBuf (leafStream key val.double) := by
  unfold HashBuilder.leafHashWithKeyVal
  simp only []
  exact List.drop_left _ _

set_option maxHeartbeats 1000000 in
/-- C2: for a LEAF opcode executed without error on nibble inputs, the
33-byte slot pushed on the hash stack embeds the short-node RLP
[compact(key), value] verbatim (its own list-header byte first) when that
RLP is strictly shorter than 32 bytes, and otherwise carries 0x80+32
followed by the Keccak-256 of that RLP. -/
theorem c2_leaf_embedded_or_hashed (hb : HashBuilder) (len : Int) (keyHex : List Nat)
    (val : RlpVal) (hb' : HashBuilder)
    (hbuf : hb.hashBuf.length = 33)
    (hkey : ∀ x ∈ keyHex, x ≤ 16)
    (hklen : keyHex.length ≤ 65)
    (hok : hb.leaf len keyHex val = .ok hb') :
    (hb'.hashStack.drop hb.hashStack.length).length = 33 ∧
    ((shortNodeRLP (leafCompact (keyHex.drop (keyHex.length - len.toNat))) val.double).length < 32 →
      (hb'.hashStack.drop hb.hashStack.length).take
          (shortNodeRLP (leafCompact (keyHex.drop (keyHex.length - len.toNat))) val.double).length =
        shortNodeRLP (leafCompact (keyHex.drop (keyHex.length - len.toNat))) val.double) ∧
    (32 ≤ (shortNodeRLP (leafCompact (keyHex.drop (keyHex.length - len.toNat))) val.double).length →
      hb'.hashStack.drop hb.hashStack.length =
        (0x80 + 32) :: keccak256
          (shortNodeRLP (leafCompact (keyHex.drop (keyHex.length - len.toNat))) val.double)) := by
  unfold HashBuilder.leaf at hok
  split_ifs at hok with hneg hshort
  obtain rfl := Except.ok.inj hok
  have hsub : ∀ x ∈ keyHex.drop (keyHex.length - len.toNat), x ≤ 16 :=
    fun x hx => hkey x (List.drop_subset _ _ hx)
  have hlc1 : (leafCompact (keyHex.drop (keyHex.length - len.toNat))).length < 56 := by
    have ha := leafCompact_length_le (keyHex.drop (keyHex.length - len.toNat))
    have hb2 : (keyHex.drop (keyHex.length - len.toNat)).length ≤ 65 := by
      simp only [List.length_drop]
      omega
    omega
  have hlc2 := leafCompact_head_lt (keyHex.drop (keyHex.length - len.toNat)) hsub
  have hstream := leafStream_eq_shortNodeRLP (keyHex.drop (keyHex.length - len.toNat))
    val.double hlc1 hlc2
  have hslot := leafHashWithKeyVal_slot
    { hb with nodeStack := hb.nodeStack ++ [some HBNode.short] }
    (keyHex.drop (keyHex.length - len.toNat)) val
  rw [hstream] at hslot
  rw [hslot]
  unfold completeLeafHash
  split_ifs with hemb
  · refine ⟨?_, fun _ => List.take_left _ _, fun hge => by omega⟩
    simp only [List.length_append, List.length_drop, hbuf]
    omega
  · exact ⟨by simp [keccak256_length], fun hlt => by omega, fun _ => rfl⟩

/-- Concrete builder produced by an embedded LEAF, for the C2 witness. -/
def c2wHB : HashBuilder :=
  (HashBuilder.init.leaf 2 [1, 16] ⟨[0x35], [0x35]⟩).toOption.getD HashBuilder.init

/-- Witness for C2 at a concrete embedded leaf. -/
theorem c2_leaf_witness :
    HashBuilder.init.leaf 2 [1, 16] ⟨[0x35], [0x35]⟩ = .ok c2wHB ∧
    (shortNodeRLP (leafCompact [1, 16]) [0x35]).length < 32 ∧
    (c2wHB.hashStack.drop 0).take (shortNodeRLP (leafCompact [1, 16]) [0x35]).length =
      shortNodeRLP (leafCompact [1, 16]) [0x35] := by
  have h : HashBuilder.init.leaf 2 [1, 16] ⟨[0x35], [0x35]⟩ = .ok c2wHB := rfl
  have h2 := c2_leaf_embedded_or_hashed HashBuilder.init 2 [1, 16] ⟨[0x35], [0x35]⟩ c2wHB
    (by decide) (by decide) (by decide) h
  refine ⟨h, by decide, ?_⟩
  have h3 := h2.2.1 (by decide)
  simpa using h3

/-! ### C5: the 17-element branch structure -/

/-- Number of set bits strictly below a digit: the index of the child for
that digit among the popped slots, in ascending bit order. -/
def bitsBelow (set d : Nat) : Nat :=
  ((List.range d).filter (fun i => bitSet16 set i)).length

/-- The 17 elements of the branch payload as the spec describes them: the
child pieces at set bit positions (indexed in ascending bit order), the
empty string elsewhere and at position 16. -/
def branchElements (set : Nat) (slots : List Nat) : List (List Nat) :=
  (List.range 17).map fun d =>
    if bitSet16 set d then childPiece ((slots.drop (33 * bitsBelow set d)).take 33)
    else [0x80]

theorem bitSet16_sixteen (set : Nat) : bitSet16 set 16 = false := by
  have h : (1 <<< 16) % 65536 = 0 := by decide
  simp [bitSet16, h, Nat.zero_and]

theorem bitsBelow_succ (set d : Nat) :
    bitsBelow set (d + 1) = bitsBelow set d + (if bitSet16 set d then 1 else 0) := by
  unfold bitsBelow
  rw [List.range_succ, List.filter_append, List.length_append]
  by_cases h : bitSet16 set d <;> simp [h]

theorem bitsBelow_mono (set : Nat) {d1 d2 : Nat} (h : d1 ≤ d2) :
    bitsBelow set d1 ≤ bitsBelow set d2 := by
  induction h with
  | refl => exact Nat.le_refl _
  | @step m hm ih =>
    have hs := bitsBelow_succ set m
    show bitsBelow set d1 ≤ bitsBelow set (m + 1)
    split_ifs at hs <;> omega

theorem flatMap_congr_mem {α β : Type} (l : List α) (f g : α → List β)
    (h : ∀ x ∈ l, f x = g x) : l.flatMap f = l.flatMap g := by
  induction l with
  | nil => rfl
  | cons x xs ih =>
    rw [List.flatMap_cons, List.flatMap_cons, h x (by simp),
      ih (fun y hy => h y (by simp [hy]))]

/-- The child-output loop over any digit range, rephrased so that each set
digit reads the slot indexed by the number of set bits below it. -/
theorem branchBodyAux_spec (set : Nat) : ∀ (k a : Nat) (slots : List Nat),
    branchBodyAux set (List.range' a k) slots =
      (List.range' a k).flatMap (fun d =>
        if bitSet16 set d then
          childPiece ((slots.drop (33 * (bitsBelow set d - bitsBelow set a))).take 33)
        else [0x80]) := by
  intro k
  induction k with
  | zero =>
    intro a slots
    rfl
  | succ n ih =>
    intro a slots
    rw [List.range'_succ, List.flatMap_cons]
    have hsucc := bitsBelow_succ set a
    cases hbit : bitSet16 set a with
    | true =>
      rw [hbit] at hsucc
      simp only [if_true, reduceIte] at hsucc
      simp only [branchBodyAux, hbit, if_true, reduceIte, Nat.sub_self, Nat.mul_zero,
        List.drop_zero]
      rw [ih (a + 1) (slots.drop 33)]
      congr 1
      apply flatMap_congr_mem
      intro d hd
      have hda : a + 1 ≤ d := (List.mem_range'_1.mp hd).1
      have hmono := bitsBelow_mono set hda
      cases hb2 : bitSet16 set d with
      | true =>
        simp only [hb2, if_true, reduceIte]
        rw [List.drop_drop]
        have hidx : 33 + 33 * (bitsBelow set d - bitsBelow set (a + 1)) =
            33 * (bitsBelow set d - bitsBelow set a) := by omega
        rw [hidx]
      | false => simp [hb2]
    | false =>
      rw [hbit] at hsucc
      simp only [Bool.false_eq_true, if_false, reduceIte, Nat.add_zero] at hsucc
      simp only [branchBodyAux, hbit, Bool.false_eq_true, if_false, reduceIte]
      rw [ih (a + 1) slots]
      congr 1
      apply flatMap_congr_mem
      intro d hd
      rw [hsucc]

/-- The byte stream hashed by branchHash is exactly the flattened
17-element payload. -/
theorem branchBody_eq_flatten (set : Nat) (slots : List Nat) :
    branchBody set slots = (branchElements set slots).flatten := by
  unfold branchBody branchElements
  rw [← List.flatMap_def, List.range_eq_range']
  rw [branchBodyAux_spec set 17 0 slots]
  apply flatMap_congr_mem
  intro d hd
  have h0 : bitsBelow set 0 = 0 := rfl
  rw [h0, Nat.sub_zero]

theorem branchElements_getD (set : Nat) (slots : List Nat) (d : Nat) (hd : d < 17) :
    (branchElements set slots).getD d [] =
      if bitSet16 set d then childPiece ((slots.drop (33 * bitsBelow set d)).take 33)
      else [0x80] := by
  interval_cases d <;> rfl

theorem drop_take_append {α : Type} (l rest : List α) (n : Nat) (h : n ≤ l.length) :
    List.drop n (List.take n l ++ rest) = rest := by
  have hlen : (List.take n l).length = n := by
    simp only [List.length_take]
    omega
  exact List.drop_left' hlen

/-- C5: refuted at mask 0.  Its popcount is 0, so every builder holds the
required number of slots, yet BRANCH(0) never pushes the all-empty
17-element branch: the source writes the summed witness length to
dataLenStack[len(dataLenStack) - 0], one past the end of the witness
stack, and panics (modelled as the error of branchHash), whatever the
builder state. -/
theorem c5_counterexample :
    (∀ hb : HashBuilder, hb.branch 0 = .error "panic: witness stack") ∧
    onesCount16 0 = 0 := by
  have h0 : onesCount16 0 = 0 := rfl
  refine ⟨fun hb => ?_, h0⟩
  simp only [HashBuilder.branch, h0]
  rw [if_neg (by omega), if_neg (by omega)]
  simp only [HashBuilder.branchHash, h0]
  rw [if_neg (by omega), if_pos (Or.inr trivial)]

set_option maxHeartbeats 1000000 in
/-- C5 (amended to masks of nonzero popcount; BRANCH(0) panics, see the
counterexample): on a synchronized builder, executing BRANCH(mask) without
error pops popcount(mask) slots and pushes one on every stack, and the
hashed byte stream is the list header followed by the flattened 17-element
payload: the popped children sit at the set bit positions in ascending bit
order (each as its 33-byte hash slot or embedded RLP piece), every unset
position among 0..15 holds the empty string 0x80, and position 16 always
holds the empty string because shifting 1 left by 16 overflows a 16-bit
mask to zero. -/
theorem c5_branch_seventeen (hb : HashBuilder) (set : Nat) (hb' : HashBuilder)
    (hwf : hb.wf) (hok : hb.branch set = .ok hb') :
    hb'.dataLenStack.length + onesCount16 set = hb.dataLenStack.length + 1 ∧
    hb'.nodeStack.length + onesCount16 set = hb.nodeStack.length + 1 ∧
    hb'.hashStack.length + 33 * onesCount16 set = hb.hashStack.length + 33 ∧
    (branchElements set (hb.hashStack.drop (hb.hashStack.length - 33 * onesCount16 set))).length = 17 ∧
    bitSet16 set 16 = false ∧
    (∀ d, d < 17 → bitSet16 set d = false →
      (branchElements set (hb.hashStack.drop (hb.hashStack.length - 33 * onesCount16 set))).getD d []
        = [0x80]) ∧
    (∀ d, d < 17 → bitSet16 set d = true →
      (branchElements set (hb.hashStack.drop (hb.hashStack.length - 33 * onesCount16 set))).getD d []
        = childPiece (((hb.hashStack.drop (hb.hashStack.length - 33 * onesCount16 set)).drop
            (33 * bitsBelow set d)).take 33)) ∧
    hb'.hashStack.drop (hb.hashStack.length - 33 * onesCount16 set) =
      0xa0 :: keccak256
        (rlpListHeader (branchTotalSize set
            (hb.hashStack.drop (hb.hashStack.length - 33 * onesCount16 set))) ++
          (branchElements set
            (hb.hashStack.drop (hb.hashStack.length - 33 * onesCount16 set))).flatten) := by
  obtain ⟨w1, w2, w3⟩ := hwf
  simp only [HashBuilder.branch] at hok
  split_ifs at hok with g1 g2
  push_neg at g1 g2
  simp only [HashBuilder.branchHash] at hok
  split_ifs at hok with g3 g4 g5 g6
  · exfalso
    simp only [List.length_append, List.length_take, List.length_cons, List.length_nil,
      keccak256_length] at g5
    omega
  · cases hok
    obtain ⟨g2a, g2b⟩ := g2
    refine ⟨?_, ?_, ?_, ?_, bitSet16_sixteen set, ?_, ?_, ?_⟩
    · simp only [List.length_append, List.length_take, List.length_cons, List.length_nil]
      omega
    · simp only [List.length_append, List.length_take, List.length_cons, List.length_nil]
      omega
    · simp only [List.length_append, List.length_take, List.length_cons, List.length_nil,
        keccak256_length]
      omega
    · simp [branchElements]
    · intro d hd hbit
      rw [branchElements_getD set _ d hd, hbit]
      simp
    · intro d hd hbit
      rw [branchElements_getD set _ d hd, hbit]
      simp
    · rw [← branchBody_eq_flatten]
      exact drop_take_append _ _ _ (by omega)

/-- Concrete result of BRANCH(0b11) on a builder holding two empty-root
slots. -/
def c5wHB : HashBuilder :=
  ((HashBuilder.init.emptyRoot.emptyRoot).branch 3).toOption.getD HashBuilder.init

set_option maxRecDepth 100000 in
theorem c5_branch_witness :
    (HashBuilder.init.emptyRoot.emptyRoot).branch 3 = .ok c5wHB ∧
    c5wHB.dataLenStack.length + onesCount16 3 =
      (HashBuilder.init.emptyRoot.emptyRoot).dataLenStack.length + 1 ∧
    bitSet16 3 16 = false := by
  have h : (HashBuilder.init.emptyRoot.emptyRoot).branch 3 = .ok c5wHB := by
    unfold c5wHB
    rfl
  have h2 := c5_branch_seventeen (HashBuilder.init.emptyRoot.emptyRoot) 3 c5wHB
    ⟨rfl, rfl, rfl⟩ h
  exact ⟨h, h2.1, h2.2.2.2.2.1⟩

/-! ### C8: account encoding round trips -/

theorem beBytes_zero : beBytes 0 = [] := by
  unfold beBytes
  simp

theorem beBytes_ne_nil (n : Nat) (hn : n ≠ 0) : beBytes n ≠ [] := by
  rw [beBytes, if_neg hn]
  simp

theorem beNat_beBytes (n : Nat) : beNat (beBytes n) = n := by
  induction n using Nat.strong_induction_on with
  | _ n ih =>
    by_cases h : n = 0
    · subst h
      rw [beBytes_zero]
      rfl
    · rw [beBytes, if_neg h, beNat_append_singleton,
        ih (n / 256) (Nat.div_lt_self (Nat.pos_of_ne_zero h) (by omega))]
      omega

theorem beBytes_headD_ne (n : Nat) (hn : n ≠ 0) : (beBytes n).headD 1 ≠ 0 := by
  induction n using Nat.strong_induction_on with
  | _ n ih =>
    rw [beBytes, if_neg hn]
    by_cases h2 : n / 256 = 0
    · rw [h2, beBytes_zero, List.nil_append, List.headD_cons]
      omega
    · cases hb : beBytes (n / 256) with
      | nil => exact absurd hb (beBytes_ne_nil _ h2)
      | cons x l =>
        simp only [List.cons_append, List.headD_cons]
        have hx := ih (n / 256) (Nat.div_lt_self (Nat.pos_of_ne_zero hn) (by omega)) h2
        rw [hb, List.headD_cons] at hx
        exact hx

theorem beBytes_length_le (k : Nat) : ∀ n, n < 256 ^ k → (beBytes n).length ≤ k := by
  induction k with
  | zero =>
    intro n h
    have : n = 0 := by simpa using h
    simp [this, beBytes_zero]
  | succ m ih =>
    intro n h
    by_cases h0 : n = 0
    · simp [h0, beBytes_zero]
    · rw [beBytes, if_neg h0, List.length_append]
      have hp : (256 : Nat) ^ (m + 1) = 256 ^ m * 256 := pow_succ 256 m
      have := ih (n / 256) (by rw [hp] at h; omega)
      simp only [List.length_cons, List.length_nil]
      omega

theorem beBytes_single (n : Nat) (h0 : n ≠ 0) (h : n < 256) : beBytes n = [n] := by
  rw [beBytes, if_neg h0, Nat.div_eq_of_lt h, beBytes_zero, Nat.mod_eq_of_lt h,
    List.nil_append]

theorem payloadToNat_beBytes (n : Nat) : payloadToNat (beBytes n) = some n := by
  unfold payloadToNat
  by_cases h : n = 0
  · subst h
    rw [beBytes_zero]
    rfl
  · rw [if_neg (beBytes_headD_ne n h), beNat_beBytes]

theorem rlpEncBytes_ne_nil (bs : List Nat) : rlpEncBytes bs ≠ [] := by
  unfold rlpEncBytes
  split_ifs with h1 h2
  · obtain ⟨x, rfl⟩ := List.length_eq_one.mp h1.1
    simp
  · simp
  · simp

theorem rlpEncBytes_length_le (bs : List Nat) (h : bs.length < 56) :
    1 ≤ (rlpEncBytes bs).length ∧ (rlpEncBytes bs).length ≤ bs.length + 1 := by
  unfold rlpEncBytes
  split_ifs with h1
  · simp [h1.1]
  · simp

theorem parseRlpString_enc (bs rest : List Nat) (hlen : bs.length < 56) :
    parseRlpString (rlpEncBytes bs ++ rest) = some (bs, rest) := by
  unfold rlpEncBytes
  split_ifs with h1
  · obtain ⟨hl1, hh⟩ := h1
    obtain ⟨x, rfl⟩ := List.length_eq_one.mp hl1
    simp only [List.headD_cons] at hh
    simp only [List.cons_append, List.nil_append, parseRlpString]
    rw [if_pos hh]
  · simp only [List.cons_append, parseRlpString]
    have hc0 : ¬ (0x80 + bs.length < 0x80) := by omega
    have hcb : 0x80 + bs.length < 0xb8 := by omega
    rw [if_neg hc0, if_pos hcb]
    have hc1 : ¬ ((bs ++ rest).length < 0x80 + bs.length - 0x80) := by
      simp only [List.length_append]
      omega
    have hc2 : ¬ (0x80 + bs.length - 0x80 = 1 ∧ (bs ++ rest).headD 0 < 0x80) := by
      rintro ⟨hL, hh⟩
      have hbs1 : bs.length = 1 := by omega
      obtain ⟨x, rfl⟩ := List.length_eq_one.mp hbs1
      simp only [List.cons_append, List.headD_cons] at hh
      exact h1 ⟨hbs1, by simpa using hh⟩
    rw [if_neg hc1, if_neg hc2]
    rw [show 0x80 + bs.length - 0x80 = bs.length by omega, List.take_left, List.drop_left]

theorem parseRlpList_short (payload rest : List Nat) (h : payload.length < 56) :
    parseRlpList (rlpListHeader payload.length ++ (payload ++ rest)) =
      some (payload, rest) := by
  unfold rlpListHeader
  rw [if_pos h]
  simp only [List.cons_append, List.nil_append, parseRlpList]
  rw [if_neg (by omega), if_pos (by omega)]
  rw [if_neg (by simp only [List.length_append]; omega)]
  rw [show 0xc0 + payload.length - 0xc0 = payload.length by omega, List.take_left,
    List.drop_left]

theorem beNat_single (x : Nat) : beNat [x] = x := by
  unfold beNat
  simp

theorem parseRlpList_long1 (payload rest : List Nat) (h56 : 56 ≤ payload.length)
    (h256 : payload.length < 256) :
    parseRlpList (rlpListHeader payload.length ++ (payload ++ rest)) =
      some (payload, rest) := by
  have henc : rlpListHeader payload.length = [0xf8, payload.length] := by
    unfold rlpListHeader
    rw [if_neg (by omega), beBytes_single _ (by omega) h256]
    norm_num
  rw [henc]
  simp only [List.cons_append, List.nil_append, parseRlpList]
  rw [if_neg (by norm_num), if_neg (by norm_num)]
  rw [show (0xf8 - 0xf7 : Nat) = 1 from rfl]
  rw [show List.take 1 (payload.length :: (payload ++ rest)) = [payload.length] from rfl]
  rw [show List.drop 1 (payload.length :: (payload ++ rest)) = payload ++ rest from rfl]
  rw [if_neg (by simp only [List.length_cons]; omega)]
  rw [if_neg (by rw [List.headD_cons]; omega)]
  rw [beNat_single]
  rw [if_neg (by omega), if_neg (by simp only [List.length_append]; omega)]
  rw [List.take_left, List.drop_left]

theorem parseU64_enc (n : Nat) (rest : List Nat) (h : n < 2 ^ 64) :
    parseU64 (rlpEncNat n ++ rest) = some (n, rest) := by
  have h8 : (beBytes n).length ≤ 8 := beBytes_length_le 8 n (by norm_num; omega)
  unfold parseU64 rlpEncNat
  rw [parseRlpString_enc _ _ (by omega)]
  simp only [if_pos h8, payloadToNat_beBytes]
  rfl

theorem parseBigInt_enc (n : Nat) (rest : List Nat) (h : n < 2 ^ 256) :
    parseBigInt (rlpEncNat n ++ rest) = some (n, rest) := by
  have h32 : (beBytes n).length ≤ 32 := beBytes_length_le 32 n (by norm_num; omega)
  unfold parseBigInt rlpEncNat
  rw [parseRlpString_enc _ _ (by omega)]
  simp only [payloadToNat_beBytes]
  rfl

theorem parseHash32_enc (hsh rest : List Nat) (hlen : hsh.length = 32) :
    parseHash32 (rlpEncBytes hsh ++ rest) = some (hsh, rest) := by
  unfold parseHash32
  rw [parseRlpString_enc _ _ (by omega)]
  simp [hlen]

theorem rlpEncNat_length_le (n k : Nat) (hk : k < 55) (h : n < 256 ^ k) :
    1 ≤ (rlpEncNat n).length ∧ (rlpEncNat n).length ≤ k + 1 := by
  have hb := beBytes_length_le k n h
  unfold rlpEncNat
  have := rlpEncBytes_length_le (beBytes n) (by omega)
  omega

theorem rlpEncBytes_length32 (bs : List Nat) (h : bs.length = 32) :
    (rlpEncBytes bs).length = 33 := by
  unfold rlpEncBytes
  split_ifs with h1 h2
  · omega
  · simp [h]
  · omega

theorem rlpListHeader_long1 (L : Nat) (h56 : 56 ≤ L) (h256 : L < 256) :
    rlpListHeader L = [0xf8, L] := by
  unfold rlpListHeader
  rw [if_neg (by omega), beBytes_single _ (by omega) h256]
  norm_num

theorem parseU64_enc0 (n : Nat) (h : n < 2 ^ 64) :
    parseU64 (rlpEncNat n) = some (n, []) := by
  conv_lhs => rw [show rlpEncNat n = rlpEncNat n ++ [] from (List.append_nil _).symm]
  exact parseU64_enc n [] h

theorem parseBigInt_enc0 (n : Nat) (h : n < 2 ^ 256) :
    parseBigInt (rlpEncNat n) = some (n, []) := by
  conv_lhs => rw [show rlpEncNat n = rlpEncNat n ++ [] from (List.append_nil _).symm]
  exact parseBigInt_enc n [] h

theorem parseRlpString_enc0 (bs : List Nat) (h : bs.length < 56) :
    parseRlpString (rlpEncBytes bs) = some (bs, []) := by
  conv_lhs => rw [show rlpEncBytes bs = rlpEncBytes bs ++ [] from (List.append_nil _).symm]
  exact parseRlpString_enc bs [] h

theorem parseExtAccount_enc (n b : Nat) (hn : n < 2 ^ 64) (hb : b < 2 ^ 256)
    (hL : (rlpEncNat n ++ rlpEncNat b).length < 56) :
    parseExtAccount (rlpEncList [rlpEncNat n, rlpEncNat b]) = some (n, b) := by
  unfold parseExtAccount rlpEncList
  simp only [List.flatten_cons, List.flatten_nil, List.append_nil]
  have hplist := parseRlpList_short (rlpEncNat n ++ rlpEncNat b) [] hL
  rw [List.append_nil] at hplist
  rw [hplist]
  simp only [ne_eq, not_true_eq_false, if_false, reduceIte, parseU64_enc n _ hn,
    parseBigInt_enc0 b hb]

theorem parseAccount4_enc (n b : Nat) (root ch : List Nat) (hn : n < 2 ^ 64)
    (hb : b < 2 ^ 256) (hr : root.length = 32) (hc : ch.length = 32)
    (h56 : 56 ≤ (rlpEncNat n ++ (rlpEncNat b ++ (rlpEncBytes root ++ rlpEncBytes ch))).length)
    (h256 : (rlpEncNat n ++ (rlpEncNat b ++ (rlpEncBytes root ++ rlpEncBytes ch))).length < 256) :
    parseAccount4 (rlpEncList [rlpEncNat n, rlpEncNat b, rlpEncBytes root, rlpEncBytes ch]) =
      .ok (n, b, root, ch) := by
  unfold parseAccount4 rlpEncList
  simp only [List.flatten_cons, List.flatten_nil, List.append_nil, List.append_assoc]
  have hplist := parseRlpList_long1
    (rlpEncNat n ++ (rlpEncNat b ++ (rlpEncBytes root ++ rlpEncBytes ch))) [] h56 h256
  rw [List.append_nil] at hplist
  rw [hplist]
  simp only [ne_eq, not_true_eq_false, if_false, reduceIte, parseU64_enc n _ hn,
    parseBigInt_enc b _ hb, parseHash32_enc root _ hr,
    parseRlpString_enc0 ch (by omega)]

theorem parseAccount4_enc5 (n b s : Nat) (root ch : List Nat) (hn : n < 2 ^ 64)
    (hb : b < 2 ^ 256) (hr : root.length = 32) (hc : ch.length = 32)
    (h56 : 56 ≤ (rlpEncNat n ++ (rlpEncNat b ++ (rlpEncBytes root ++
      (rlpEncBytes ch ++ rlpEncNat s)))).length)
    (h256 : (rlpEncNat n ++ (rlpEncNat b ++ (rlpEncBytes root ++
      (rlpEncBytes ch ++ rlpEncNat s)))).length < 256) :
    parseAccount4 (rlpEncList [rlpEncNat n, rlpEncNat b, rlpEncBytes root, rlpEncBytes ch,
        rlpEncNat s]) = .error .tooMany := by
  unfold parseAccount4 rlpEncList
  simp only [List.flatten_cons, List.flatten_nil, List.append_nil, List.append_assoc]
  have hplist := parseRlpList_long1
    (rlpEncNat n ++ (rlpEncNat b ++ (rlpEncBytes root ++ (rlpEncBytes ch ++ rlpEncNat s))))
    [] h56 h256
  rw [List.append_nil] at hplist
  rw [hplist]
  simp only [ne_eq, not_true_eq_false, if_false, reduceIte, parseU64_enc n _ hn,
    parseBigInt_enc b _ hb, parseHash32_enc root _ hr,
    parseRlpString_enc ch _ (by omega)]
  rw [if_neg (by unfold rlpEncNat; exact rlpEncBytes_ne_nil _)]

theorem parseAccount5_enc (n b s : Nat) (root ch : List Nat) (hn : n < 2 ^ 64)
    (hb : b < 2 ^ 256) (hr : root.length = 32) (hc : ch.length = 32) (hs : s < 2 ^ 64)
    (h56 : 56 ≤ (rlpEncNat n ++ (rlpEncNat b ++ (rlpEncBytes root ++
      (rlpEncBytes ch ++ rlpEncNat s)))).length)
    (h256 : (rlpEncNat n ++ (rlpEncNat b ++ (rlpEncBytes root ++
      (rlpEncBytes ch ++ rlpEncNat s)))).length < 256) :
    parseAccount5 (rlpEncList [rlpEncNat n, rlpEncNat b, rlpEncBytes root, rlpEncBytes ch,
        rlpEncNat s]) = some (n, b, root, ch, s) := by
  unfold parseAccount5 rlpEncList
  simp only [List.flatten_cons, List.flatten_nil, List.append_nil, List.append_assoc]
  have hplist := parseRlpList_long1
    (rlpEncNat n ++ (rlpEncNat b ++ (rlpEncBytes root ++ (rlpEncBytes ch ++ rlpEncNat s))))
    [] h56 h256
  rw [List.append_nil] at hplist
  rw [hplist]
  simp only [ne_eq, not_true_eq_false, if_false, reduceIte, parseU64_enc n _ hn,
    parseBigInt_enc b _ hb, parseHash32_enc root _ hr,
    parseRlpString_enc ch _ (by omega), parseU64_enc0 s hs]

theorem rlpListHeader_short (L : Nat) (h : L < 56) : rlpListHeader L = [0xc0 + L] := by
  unfold rlpListHeader
  rw [if_pos h]

theorem encodingToAccount_ext (n b : Nat) (hn : n < 2 ^ 64) (hb : b < 2 ^ 256) :
    encodingToAccount (rlpEncList [rlpEncNat n, rlpEncNat b]) =
      .ok (some { nonce := n, balance := b, root := emptyRootBytes,
                  codeHash := emptyCodeHashBytes, storageSize := none }) := by
  have h1 := rlpEncNat_length_le n 8 (by norm_num) (lt_of_lt_of_le hn (by norm_num))
  have h2 := rlpEncNat_length_le b 32 (by norm_num) (lt_of_lt_of_le hb (by norm_num))
  have hL : (rlpEncNat n ++ rlpEncNat b).length < 56 := by
    simp only [List.length_append]
    omega
  have hench : (rlpEncList [rlpEncNat n, rlpEncNat b]).length =
      1 + (rlpEncNat n ++ rlpEncNat b).length := by
    unfold rlpEncList
    simp only [List.flatten_cons, List.flatten_nil, List.append_nil]
    rw [rlpListHeader_short _ hL]
    simp only [List.length_append, List.length_cons, List.length_nil]
    try omega
  have hPsum : (rlpEncNat n ++ rlpEncNat b).length =
      (rlpEncNat n).length + (rlpEncNat b).length := by
    simp
  unfold encodingToAccount
  rw [if_neg (by omega), if_neg (by omega), if_pos (by omega)]
  rw [parseExtAccount_enc n b hn hb hL]

theorem encodingToAccount_acct4 (n b : Nat) (root ch : List Nat) (hn : n < 2 ^ 64)
    (hb : b < 2 ^ 256) (hr : root.length = 32) (hc : ch.length = 32) :
    encodingToAccount (rlpEncList [rlpEncNat n, rlpEncNat b, rlpEncBytes root,
        rlpEncBytes ch]) =
      .ok (some { nonce := n, balance := b, root := root, codeHash := ch,
                  storageSize := none }) := by
  have h1 := rlpEncNat_length_le n 8 (by norm_num) (lt_of_lt_of_le hn (by norm_num))
  have h2 := rlpEncNat_length_le b 32 (by norm_num) (lt_of_lt_of_le hb (by norm_num))
  have h3 := rlpEncBytes_length32 root hr
  have h4 := rlpEncBytes_length32 ch hc
  have h56 : 56 ≤ (rlpEncNat n ++ (rlpEncNat b ++ (rlpEncBytes root ++
      rlpEncBytes ch))).length := by
    simp only [List.length_append]
    omega
  have h256 : (rlpEncNat n ++ (rlpEncNat b ++ (rlpEncBytes root ++
      rlpEncBytes ch))).length < 256 := by
    simp only [List.length_append]
    omega
  have hench : (rlpEncList [rlpEncNat n, rlpEncNat b, rlpEncBytes root,
      rlpEncBytes ch]).length =
      2 + (rlpEncNat n ++ (rlpEncNat b ++ (rlpEncBytes root ++ rlpEncBytes ch))).length := by
    unfold rlpEncList
    simp only [List.flatten_cons, List.flatten_nil, List.append_nil, List.append_assoc]
    rw [rlpListHeader_long1 _ h56 h256]
    simp only [List.length_append, List.length_cons, List.length_nil]
    try omega
  have hPsum : (rlpEncNat n ++ (rlpEncNat b ++ (rlpEncBytes root ++
      rlpEncBytes ch))).length = (rlpEncNat n).length + ((rlpEncNat b).length +
      ((rlpEncBytes root).length + (rlpEncBytes ch).length)) := by
    simp
  unfold encodingToAccount
  rw [if_neg (by omega), if_neg (by omega), if_neg (by omega)]
  rw [parseAccount4_enc n b root ch hn hb hr hc h56 h256]

theorem encodingToAccount_acct5 (n b s : Nat) (root ch : List Nat) (hn : n < 2 ^ 64)
    (hb : b < 2 ^ 256) (hr : root.length = 32) (hc : ch.length = 32) (hs : s < 2 ^ 64) :
    encodingToAccount (rlpEncList [rlpEncNat n, rlpEncNat b, rlpEncBytes root,
        rlpEncBytes ch, rlpEncNat s]) =
      .ok (some { nonce := n, balance := b, root := root, codeHash := ch,
                  storageSize := some s }) := by
  have h1 := rlpEncNat_length_le n 8 (by norm_num) (lt_of_lt_of_le hn (by norm_num))
  have h2 := rlpEncNat_length_le b 32 (by norm_num) (lt_of_lt_of_le hb (by norm_num))
  have h3 := rlpEncBytes_length32 root hr
  have h4 := rlpEncBytes_length32 ch hc
  have h5 := rlpEncNat_length_le s 8 (by norm_num) (lt_of_lt_of_le hs (by norm_num))
  have h56 : 56 ≤ (rlpEncNat n ++ (rlpEncNat b ++ (rlpEncBytes root ++
      (rlpEncBytes ch ++ rlpEncNat s)))).length := by
    simp only [List.length_append]
    omega
  have h256 : (rlpEncNat n ++ (rlpEncNat b ++ (rlpEncBytes root ++
      (rlpEncBytes ch ++ rlpEncNat s)))).length < 256 := by
    simp only [List.length_append]
    omega
  have hench : (rlpEncList [rlpEncNat n, rlpEncNat b, rlpEncBytes root, rlpEncBytes ch,
      rlpEncNat s]).length =
      2 + (rlpEncNat n ++ (rlpEncNat b ++ (rlpEncBytes root ++
        (rlpEncBytes ch ++ rlpEncNat s)))).length := by
    unfold rlpEncList
    simp only [List.flatten_cons, List.flatten_nil, List.append_nil, List.append_assoc]
    rw [rlpListHeader_long1 _ h56 h256]
    simp only [List.length_append, List.length_cons, List.length_nil]
    try omega
  have hPsum : (rlpEncNat n ++ (rlpEncNat b ++ (rlpEncBytes root ++
      (rlpEncBytes ch ++ rlpEncNat s)))).length = (rlpEncNat n).length +
      ((rlpEncNat b).length + ((rlpEncBytes root).length +
      ((rlpEncBytes ch).length + (rlpEncNat s).length))) := by
    simp
  unfold encodingToAccount
  rw [if_neg (by omega), if_neg (by omega), if_neg (by omega)]
  rw [parseAccount4_enc5 n b s root ch hn hb hr hc h56 h256,
    parseAccount5_enc n b s root ch hn hb hr hc hs h56 h256]

/-- Well-formed account records: field ranges from the data model, a root
distinct from the Go zero value, and a storage size that is only present
when it is nonzero and the account is not contract-free. -/
def Account.wf (a : Account) : Prop :=
  a.nonce < 2 ^ 64 ∧ a.balance < 2 ^ 256 ∧ a.root.length = 32 ∧ a.codeHash.length = 32 ∧
  a.root ≠ zeroHash32 ∧
  (∀ s, a.storageSize = some s → s ≠ 0 ∧ s < 2 ^ 64) ∧
  (a.storageSize ≠ none → ¬(a.codeHash = emptyCodeHashBytes ∧ a.root = emptyRootBytes))

set_option maxHeartbeats 1000000 in
/-- C8 (amended): for every well-formed account record (nonce below 2^64,
balance below 2^256, 32-byte root and code hash, root distinct from the Go
zero hash, and a storage size that is absent, or nonzero, below 2^64 and
accompanied by a non-empty code hash or storage root) decoding the encoding
reproduces the record, across the three encoding shapes. -/
theorem c8_account_roundtrip (a : Account) (hwf : a.wf) :
    encodingToAccount (accountToEncoding a) = .ok (some a) := by
  obtain ⟨hn, hb, hr, hc, hz, hsome, hnone⟩ := hwf
  obtain ⟨n', b', r', c', s'⟩ := a
  simp only [Account.wf] at *
  simp only [accountToEncoding]
  split_ifs with hsh hzero
  · obtain ⟨hch, hroot⟩ := hsh
    have hroot' : r' = emptyRootBytes := by
      rcases hroot with h | h
      · exact h
      · exact absurd h hz
    have hss : s' = none := by
      by_contra hne
      exact hnone hne ⟨hch, hroot'⟩
    obtain ⟨hb0, hn0⟩ := hzero
    subst hb0 hn0 hroot' hch hss
    rfl
  · obtain ⟨hch, hroot⟩ := hsh
    have hroot' : r' = emptyRootBytes := by
      rcases hroot with h | h
      · exact h
      · exact absurd h hz
    have hss : s' = none := by
      by_contra hne
      exact hnone hne ⟨hch, hroot'⟩
    subst hroot' hch hss
    rw [encodingToAccount_ext n' b' hn hb]
  · cases s' with
    | none =>
      dsimp only
      rw [encodingToAccount_acct4 n' b' r' c' hn hb hr hc]
    | some s =>
      obtain ⟨hs0, hslt⟩ := hsome s rfl
      dsimp only
      rw [if_neg hs0]
      rw [encodingToAccount_acct5 n' b' s r' c' hn hb hr hc hslt]

/-- C8: the encode-after-decode direction fails: encodingToAccount accepts
any single byte whatsoever as the empty account, so 0x00 is an accepted
encoding, yet the account it decodes to re-encodes to 0xc0, not 0x00. -/
theorem c8_counterexample :
    encodingToAccount [0x00] = .ok (some { nonce := 0, balance := 0,
                                           root := emptyRootBytes,
                                           codeHash := emptyCodeHashBytes,
                                           storageSize := none }) ∧
    accountToEncoding { nonce := 0, balance := 0, root := emptyRootBytes,
                        codeHash := emptyCodeHashBytes, storageSize := none } = [0xc0] ∧
    ([0xc0] : List Nat) ≠ [0x00] :=
  ⟨rfl, rfl, by decide⟩

theorem c8_account_roundtrip_witness :
    encodingToAccount (accountToEncoding { nonce := 1, balance := 0,
                                           root := emptyRootBytes,
                                           codeHash := emptyCodeHashBytes,
                                           storageSize := none }) =
      .ok (some { nonce := 1, balance := 0, root := emptyRootBytes,
                  codeHash := emptyCodeHashBytes, storageSize := none }) :=
  c8_account_roundtrip _ ⟨by norm_num, by norm_num, rfl, rfl, by decide, by simp, by simp⟩

/-! ### C9: the unwind procedure -/

theorem StartNewBuffer_currentBuffer (tds : TrieDbState) :
    (tds.StartNewBuffer).currentBuffer = some Buffer.empty := by
  unfold TrieDbState.StartNewBuffer
  cases tds.currentBuffer <;> rfl

theorem foldl_history_preserved {α : Type} (f : DB → α → DB)
    (hf : ∀ d a, (f d a).history = d.history) :
    ∀ (l : List α) (db : DB), (List.foldl f db l).history = db.history := by
  intro l
  induction l with
  | nil => intro db; rfl
  | cons p rest ih =>
    intro db
    rw [List.foldl_cons, ih, hf]

theorem writeAccountChanges_history (l : List (List Nat × Option Account)) (db : DB) :
    (writeAccountChanges db l).history = db.history := by
  unfold writeAccountChanges
  apply foldl_history_preserved
  intro d a
  cases a.2 <;> rfl

theorem writeStorageChanges_history (l : List ((List Nat × List Nat) × List Nat)) (db : DB) :
    (writeStorageChanges db l).history = db.history := by
  unfold writeStorageChanges
  apply foldl_history_preserved
  intro d a
  by_cases h : a.2.length = 0 <;> simp [h, DB.del, DB.put]

theorem deleteTimestampsFrom_ops : ∀ (k : Nat) (db : DB) (i : Nat), k ≤ i →
    (deleteTimestampsFrom db i k).ops =
      db.ops ++ ((List.range' (i + 1 - k) k).reverse.map DbOp.delTimestamp) := by
  intro k
  induction k with
  | zero =>
    intro db i h
    simp [deleteTimestampsFrom]
  | succ k ih =>
    intro db i h
    unfold deleteTimestampsFrom
    rw [ih (db.deleteTimestamp i) (i - 1) (by omega)]
    have hr : List.range' (i + 1 - (k + 1)) (k + 1) =
        List.range' (i - k) k ++ [i] := by
      rw [show i + 1 - (k + 1) = i - k by omega, List.range'_concat]
      congr 2
      omega
    rw [hr]
    simp [DB.deleteTimestamp, List.reverse_append]
    congr 1
    congr 1
    omega

theorem deleteTimestampsFrom_mem : ∀ (k : Nat) (db : DB) (i : Nat) (e : Nat × List Nat),
    k ≤ i → e ∈ (deleteTimestampsFrom db i k).history →
      e ∈ db.history ∧ ¬(i - k < e.1 ∧ e.1 ≤ i) := by
  intro k
  induction k with
  | zero =>
    intro db i e hk hm
    refine ⟨hm, ?_⟩
    omega
  | succ k ih =>
    intro db i e hk hm
    unfold deleteTimestampsFrom at hm
    obtain ⟨h1, h2⟩ := ih (db.deleteTimestamp i) (i - 1) e (by omega) hm
    simp only [DB.deleteTimestamp, List.mem_filter, decide_eq_true_eq] at h1
    obtain ⟨hmem, hne⟩ := h1
    refine ⟨hmem, ?_⟩
    omega

/-- C9: a successful UnwindTo from block n to a lower target t moves the
block number to t, clears both change buffers, leaves no history entry
above t (given that no entry exceeded n), and issues exactly one
DeleteTimestamp per block from n down to t+1, in descending order, after
the write-back of the account and storage changes accumulated by replaying
the history rows through the change-buffer pipeline. -/
theorem c9_unwindTo (tds : TrieDbState) (db : DB) (rows : List Row) (t : Nat)
    (tds' : TrieDbState) (db' : DB)
    (hgt : t < tds.blockNr)
    (hhist : ∀ e ∈ db.history, e.1 ≤ tds.blockNr)
    (hok : tds.UnwindTo db rows t = .ok (tds', db')) :
    tds'.blockNr = t ∧
    tds'.currentBuffer = none ∧
    tds'.aggregateBuffer = none ∧
    (∀ e ∈ db'.history, e.1 ≤ t) ∧
    (∃ b, replayRows Buffer.empty rows = .ok b ∧
      db'.ops = (writeStorageChanges
          (writeAccountChanges db
            ((((tds.StartNewBuffer).aggregateBuffer.getD Buffer.empty).merge b).accountUpdates))
          ((((tds.StartNewBuffer).aggregateBuffer.getD Buffer.empty).merge b).storageUpdates)).ops
        ++ ((List.range' (t + 1) (tds.blockNr - t)).reverse.map DbOp.delTimestamp)) := by
  simp only [TrieDbState.UnwindTo] at hok
  rw [StartNewBuffer_currentBuffer] at hok
  simp only [Option.getD_some] at hok
  cases hrep : replayRows Buffer.empty rows with
  | error e =>
    rw [hrep] at hok
    cases hok
  | ok b =>
    rw [hrep] at hok
    dsimp only [TrieDbState.computeTrieRootsModel, TrieDbState.clearUpdates] at hok
    obtain ⟨h1, h2⟩ := Prod.mk.injEq .. ▸ Except.ok.inj hok
    subst h1 h2
    refine ⟨rfl, rfl, rfl, ?_, b, rfl, ?_⟩
    · intro e he
      obtain ⟨hin, hnot⟩ := deleteTimestampsFrom_mem (tds.blockNr - t) _ tds.blockNr e
        (by omega) he
      rw [writeStorageChanges_history, writeAccountChanges_history] at hin
      have := hhist e hin
      omega
    · rw [deleteTimestampsFrom_ops (tds.blockNr - t) _ tds.blockNr (by omega)]
      simp only [Option.getD_some]
      have hidx : tds.blockNr + 1 - (tds.blockNr - t) = t + 1 := by omega
      rw [hidx]

/-- Concrete unwind instance for the witness: two history entries, rewind
from block 2 to block 1 with one account-deletion row. -/
def c9wTds : TrieDbState :=
  { blockNr := 2, currentBuffer := none, aggregateBuffer := none }

def c9wDb : DB := { history := [(1, [7]), (2, [8])], ops := [] }

def c9wRows : List Row :=
  [{ bucket := AccountsHistoryBucket, key := List.replicate 32 0xaa, value := [] }]

def c9wRes : TrieDbState × DB :=
  (c9wTds.UnwindTo c9wDb c9wRows 1).toOption.getD (c9wTds, c9wDb)

theorem c9_unwindTo_witness :
    c9wTds.UnwindTo c9wDb c9wRows 1 = .ok c9wRes ∧
    c9wRes.1.blockNr = 1 ∧
    (∀ e ∈ c9wRes.2.history, e.1 ≤ 1) := by
  have h : c9wTds.UnwindTo c9wDb c9wRows 1 = .ok c9wRes := rfl
  have h2 := c9_unwindTo c9wTds c9wDb c9wRows 1 c9wRes.1 c9wRes.2 (by decide) (by decide)
    (by rw [h])
  exact ⟨h, h2.1, h2.2.2.2.1⟩

end TG
